import Mathlib

/-!
# Verification of the fixed-capacity skip list (`FixedSkipList`)

Shallow embedding of the repository's fixed-capacity, pointer-packed skip
list.  Node identity is an externally supplied integer key; all link fields
live in parallel flat integer arrays.  The JavaScript typed arrays are
modelled as total functions `Nat → Nat` (every value ever stored is an index
below `capacity`, so 32-bit truncation never occurs on the executions covered
by the claims); `currentLevel` is a plain JavaScript number and is modelled as
`Int` (it can go negative).  `Math.random`-driven promotion is modelled by
passing the drawn `insertLevel` as an explicit parameter.  Fallible or absent
results (`null`) are modelled with `Option`.
-/

/-- State of `FixedSkipList` (src/unnamed/part_005).  `prev` is the single
level-0 backward lane `this.prevs[0]`. -/
structure FixedSkipList where
  capacity : Nat
  maxLevel : Nat
  compare : Nat → Nat → Int
  currentLevel : Int
  heads : Nat → Nat
  tails : Nat → Nat
  sizes : Nat → Nat
  nexts : Nat → Nat → Nat
  prev : Nat → Nat

namespace FixedSkipList

/-- Update the level-`l` forward lane at cell `x`. -/
def upd2 (f : Nat → Nat → Nat) (l x v : Nat) : Nat → Nat → Nat :=
  Function.update f l (Function.update (f l) x v)

/-- Walk `n` pointer steps from `start`: the list of nodes visited. -/
def walk (f : Nat → Nat) : Nat → Nat → List Nat
  | _, 0 => []
  | s, n + 1 => s :: walk f (f s) n

/-- The chain stored at level `l`: `sizes[l]` nodes from `heads[l]` along
`nexts[l]`. -/
def chainAt (σ : FixedSkipList) (l : Nat) : List Nat :=
  walk (σ.nexts l) (σ.heads l) (σ.sizes l)

/-- The inner scan of `insert`'s interior case: advance while
`compare(index, curr) >= 0`, return `some (last, curr)` on the first
`compare(index, curr) < 0` (the splice point), `none` if the fuel
(`size`) runs out. -/
def insScan (cmp : Nat → Nat → Int) (f : Nat → Nat) (i : Nat) :
    Nat → Option Nat → Nat → Option (Option Nat × Nat)
  | 0, _, _ => none
  | fuel + 1, last, curr =>
    if cmp i curr < 0 then some (last, curr)
    else insScan cmp f i fuel (some curr) (f curr)

/-- One level of `insert` (part_005 lines 107-168).  Returns the new state,
the new cross-level hint `point`, and a flag recording whether the interior
splice went through a `null` predecessor (the JS write `next[null]`, a no-op
on a typed array; `prev[index] = null` coerces `null` to `0`). -/
def insertStep (σ : FixedSkipList) (i insLv l : Nat) (pt : Option Nat) :
    FixedSkipList × Option Nat × Bool :=
  let size := σ.sizes l
  let head := σ.heads l
  let tail := σ.tails l
  let σ₁ := if l ≤ insLv then
    { σ with sizes := Function.update σ.sizes l (size + 1) } else σ
  if 1 ≤ size then
    if σ.compare i head < 0 then
      if l ≤ insLv then
        let σ₂ := { σ₁ with heads := Function.update σ₁.heads l i,
                            nexts := upd2 σ₁.nexts l i head }
        (if l = 0 then { σ₂ with prev := Function.update σ₂.prev head i } else σ₂,
         none, false)
      else (σ₁, none, false)
    else if 0 ≤ σ.compare i tail then
      if l ≤ insLv then
        let σ₂ := { σ₁ with tails := Function.update σ₁.tails l i,
                            nexts := upd2 σ₁.nexts l tail i }
        (if l = 0 then { σ₂ with prev := Function.update σ₂.prev i tail } else σ₂,
         some tail, false)
      else (σ₁, some tail, false)
    else
      let start : Option Nat × Nat :=
        match pt with
        | some p => (none, p)
        | none => (some head, σ.nexts l head)
      match insScan σ.compare (σ.nexts l) i size start.1 start.2 with
      | none => (σ₁, pt, false)
      | some (last, curr) =>
        if l ≤ insLv then
          match last with
          | some p =>
            let σ₂ := { σ₁ with nexts := upd2 (upd2 σ₁.nexts l p i) l i curr }
            (if l = 0 then
               { σ₂ with prev := Function.update (Function.update σ₂.prev i p) curr i }
             else σ₂, some p, false)
          | none =>
            let σ₂ := { σ₁ with nexts := upd2 σ₁.nexts l i curr }
            (if l = 0 then
               { σ₂ with prev := Function.update (Function.update σ₂.prev i 0) curr i }
             else σ₂, none, true)
        else (σ₁, last, false)
  else
    (if l ≤ insLv then
       { σ₁ with heads := Function.update σ₁.heads l i,
                 tails := Function.update σ₁.tails l i }
     else σ₁, none, false)

/-- The level loop of `insert`, from level `l` down to `0`. -/
def insertLoop (i insLv : Nat) : Nat → FixedSkipList → Option Nat → Bool →
    FixedSkipList × Bool
  | 0, σ, pt, fl =>
    let r := insertStep σ i insLv 0 pt
    (r.1, fl || r.2.2)
  | l + 1, σ, pt, fl =>
    let r := insertStep σ i insLv (l + 1) pt
    insertLoop i insLv l r.1 r.2.1 (fl || r.2.2)

/-- `insert(index)` with the drawn promotion level passed explicitly.  Also
returns the null-predecessor-splice flag. -/
def insertRun (σ : FixedSkipList) (i insLv : Nat) : FixedSkipList × Bool :=
  let cl : Int := max (insLv : Int) σ.currentLevel
  insertLoop i insLv cl.toNat { σ with currentLevel := cl } none false

/-- `insert(index)` (state part). -/
def insert (σ : FixedSkipList) (i insLv : Nat) : FixedSkipList :=
  (insertRun σ i insLv).1

/-- Whether this `insert` attempted the interior splice through a `null`
predecessor. -/
def insertNullWrite (σ : FixedSkipList) (i insLv : Nat) : Bool :=
  (insertRun σ i insLv).2

/-- The scan of `remove` at one level: find `index`, returning `some last`
(the trailing predecessor, `none` if `index` was first) or `none` when the
scan ends at `tail` or the fuel runs out. -/
def remScan (f : Nat → Nat) (i tail : Nat) :
    Nat → Option Nat → Nat → Option (Option Nat)
  | 0, _, _ => none
  | fuel + 1, last, curr =>
    if curr = i then some last
    else if curr = tail then none
    else remScan f i tail fuel (some curr) (f curr)

/-- One level of `remove` (part_005 lines 180-209). -/
def removeStep (σ : FixedSkipList) (i l : Nat) (pt : Option Nat) :
    FixedSkipList × Option Nat :=
  let size := σ.sizes l
  let head := σ.heads l
  let tail := σ.tails l
  match remScan (σ.nexts l) i tail size none (pt.getD head) with
  | none => (σ, pt)
  | some last =>
    let σ₁ := { σ with sizes := Function.update σ.sizes l (size - 1) }
    let σ₂ := if i = head then
      { σ₁ with heads := Function.update σ₁.heads l (σ.nexts l i) } else σ₁
    let σ₃ := match last with
      | some p =>
        let σp := if l = 0 then
          { σ₂ with prev := Function.update σ₂.prev (σ.nexts l i) p } else σ₂
        { σp with nexts := upd2 σp.nexts l p (σ.nexts l i) }
      | none => σ₂
    let σ₄ := if i = tail then
      { σ₃ with tails := Function.update σ₃.tails l (last.getD head) } else σ₃
    let σ₅ := if size = 1 then
      { σ₄ with currentLevel := σ₄.currentLevel - 1 } else σ₄
    (σ₅, last)

/-- The level loop of `remove`. -/
def removeLoop (i : Nat) : Nat → FixedSkipList → Option Nat → FixedSkipList
  | 0, σ, pt => (removeStep σ i 0 pt).1
  | l + 1, σ, pt =>
    let r := removeStep σ i (l + 1) pt
    removeLoop i l r.1 r.2

/-- `remove(index)`.  When `currentLevel` is negative the level loop never
runs. -/
def remove (σ : FixedSkipList) (i : Nat) : FixedSkipList :=
  if 0 ≤ σ.currentLevel then removeLoop i σ.currentLevel.toNat σ none else σ

/-- The scan of `bisect` at one level: returns `(some last)` when the
predicate first holds (the `point := last` assignment), `none` otherwise,
together with the final value of `curr`. -/
def biScan (P : Nat → Bool) (f : Nat → Nat) (tail : Nat) :
    Nat → Option Nat → Nat → Option (Option Nat) × Nat
  | 0, _, curr => (none, curr)
  | fuel + 1, last, curr =>
    if P curr then (some last, curr)
    else if curr = tail then (none, curr)
    else biScan P f tail fuel (some curr) (f curr)

/-- The level loop of `bisect`; at level 0 the early `return head` fires when
the final cursor still equals `heads[0]`. -/
def bisectLoop (P : Nat → Bool) : Nat → FixedSkipList → Option Nat → Option Nat
  | 0, σ, pt =>
    let head := σ.heads 0
    let r := biScan P (σ.nexts 0) (σ.tails 0) (σ.sizes 0) none (pt.getD head)
    if r.2 = head then some head
    else match r.1 with
      | some last => last
      | none => pt
  | l + 1, σ, pt =>
    let r := biScan P (σ.nexts (l + 1)) (σ.tails (l + 1)) (σ.sizes (l + 1))
      none (pt.getD (σ.heads (l + 1)))
    bisectLoop P l σ (match r.1 with | some last => last | none => pt)

/-- `bisect(predicate)`. -/
def bisect (σ : FixedSkipList) (P : Nat → Bool) : Option Nat :=
  if 0 ≤ σ.currentLevel then bisectLoop P σ.currentLevel.toNat σ none else none

/-- The scan of `search` at one level: returns the `found` update (`some c`
when `match(c) = 0` broke the scan) and the final value of the cross-level
cursor `last`. -/
def seScan (m : Nat → Int) (f : Nat → Nat) (tail : Nat) :
    Nat → Option Nat → Nat → Option Nat × Option Nat
  | 0, last, _ => (none, last)
  | fuel + 1, last, curr =>
    if last = some tail then (none, last)
    else if 0 ≤ m curr then (if m curr = 0 then some curr else none, last)
    else seScan m f tail fuel (some curr) (f curr)

/-- The level loop of `search`. -/
def searchLoop (m : Nat → Int) : Nat → FixedSkipList → Option Nat → Option Nat →
    Option Nat
  | 0, σ, last, found =>
    let r := seScan m (σ.nexts 0) (σ.tails 0) (σ.sizes 0) last
      (last.getD (σ.heads 0))
    match r.1 with
    | some c => some c
    | none => found
  | l + 1, σ, last, found =>
    let r := seScan m (σ.nexts (l + 1)) (σ.tails (l + 1)) (σ.sizes (l + 1)) last
      (last.getD (σ.heads (l + 1)))
    searchLoop m l σ r.2 (match r.1 with | some c => some c | none => found)

/-- `search(match)`. -/
def search (σ : FixedSkipList) (m : Nat → Int) : Option Nat :=
  if 0 ≤ σ.currentLevel then searchLoop m σ.currentLevel.toNat σ none none
  else none

/-- The shared generator `iterate(pointers, start, finish, limit)`
(part_005 lines 294-298): yield while `i < limit && last !== finish`. -/
def jsIterate (pointers : Nat → Nat) (finish : Nat) :
    Nat → Nat → Option Nat → List Nat
  | 0, _, _ => []
  | limit + 1, curr, last =>
    if last = some finish then []
    else curr :: jsIterate pointers finish limit (pointers curr) (some curr)

/-- `forwards(start?, limit?)`. -/
def forwards (σ : FixedSkipList) (start limit : Option Nat) : List Nat :=
  jsIterate (σ.nexts 0) (σ.tails 0) (limit.getD (σ.sizes 0))
    (start.getD (σ.heads 0)) none

/-- `backwards(start?, limit?)`. -/
def backwards (σ : FixedSkipList) (start limit : Option Nat) : List Nat :=
  jsIterate σ.prev (σ.heads 0) (limit.getD (σ.sizes 0))
    (start.getD (σ.tails 0)) none

/-- The default iterator `[Symbol.iterator]`. -/
def iterS (σ : FixedSkipList) : List Nat :=
  jsIterate (σ.nexts 0) (σ.tails 0) (σ.sizes 0) (σ.heads 0) none

/-- A freshly constructed list: all buffers zeroed, `currentLevel = 0`. -/
def fresh (capacity maxLevel : Nat) (cmp : Nat → Nat → Int) : FixedSkipList :=
  { capacity := capacity, maxLevel := maxLevel, compare := cmp,
    currentLevel := 0, heads := fun _ => 0, tails := fun _ => 0,
    sizes := fun _ => 0, nexts := fun _ _ => 0, prev := fun _ => 0 }

/-- The binary search of `randomLevel` over the CDF table, recursing on the
shrinking interval `[lo, hi)`. -/
def rlLoop (x : ℚ) (table : Nat → ℚ) (lo hi : Nat) : Nat :=
  if h : lo < hi then
    let mid := (lo + hi) / 2
    if x ≤ table mid then rlLoop x table (mid + 1) hi
    else rlLoop x table lo mid
  else lo
termination_by hi - lo
decreasing_by
  · have hm : (lo + hi) / 2 < hi := Nat.div_lt_of_lt_mul (by omega)
    omega
  · have hm : lo ≤ (lo + hi) / 2 := Nat.le_div_iff_mul_le (by omega) |>.mpr (by omega)
    omega

/-- `randomLevelGenerator(count, ratio)` applied to a uniform draw `x`. -/
def randomLevel (count : Nat) (ratio x : ℚ) : Nat :=
  rlLoop x (fun i => ratio ^ (i + 1)) 0 count

end FixedSkipList

section Comparator

variable {K : Type} [LinearOrder K]

/-- A consistent three-way comparator determined by a key assignment. -/
def keyCompare (key : Nat → K) (a b : Nat) : Int :=
  if key a < key b then -1 else if key b < key a then 1 else 0

/-- The sorted insertion of `i` into `c`, after all existing elements whose
key does not exceed `key i` (the code's tie policy: equal keys go right). -/
def insIdx (key : Nat → K) (i : Nat) (c : List Nat) : List Nat :=
  c.takeWhile (fun x => !decide (key i < key x)) ++
    i :: c.dropWhile (fun x => !decide (key i < key x))

/-- The states reachable by valid operation sequences: inserted indices are
in range, never inserted twice, drawn levels are below `maxLevel`, removals
hit live indices, and the comparator is the consistent total (pre)order
induced by `key`. -/
inductive Reachable (key : Nat → K) : FixedSkipList → Prop
  | init (capacity maxLevel : Nat) (h : 1 ≤ maxLevel) :
      Reachable key (FixedSkipList.fresh capacity maxLevel (keyCompare key))
  | insert {σ : FixedSkipList} (i insLv : Nat) : Reachable key σ →
      i < σ.capacity → i ∉ σ.chainAt 0 → insLv + 1 ≤ σ.maxLevel →
      Reachable key (σ.insert i insLv)
  | remove {σ : FixedSkipList} (i : Nat) : Reachable key σ →
      i ∈ σ.chainAt 0 → Reachable key (σ.remove i)

end Comparator

/-!
## Constructor outcome

The constructor computes `maxLevel = Math.floor(Math.log(capacity) /
Math.log(1 / ratio)) + 1` (line 24) and then allocates, in source order:
`metas = new ArrayBuffer(3 * (maxLevel * 4))`, the three `Uint32Array`
views `heads`/`tails`/`sizes`, a `Float64Array(maxLevel - 1)` inside
`randomLevelGenerator`, `lanes = new ArrayBuffer(maxLevel * (capacity * 4))`,
one `Uint32Array` lane view per level, and `new Uint32Array(capacity)`.
Construction fails exactly when one of these raises a `RangeError`: a length
or offset whose `ToIndex` truncation is below 0 or above `2^53 - 1`
(infinities included), or a view bounds violation; `ToIndex(NaN) = 0` never
raises.  ECMAScript leaves `Math.log` implementation-approximated away from
its mandated special cases, so the model is parametric in a float semantics
`FloatSem`, and `Conforming` pins down only what IEEE 754 / ECMA-262 mandate
plus crude magnitude bounds satisfied by every real implementation.  Doubles
are `JSD` values carrying their class and exact value; the integer
arithmetic downstream of `Math.floor` is modelled exactly: a real engine
rounds sums and products once they exceed `2^53`, but rounding a value that
is an integer above `2^53 - 1` (or negative, infinite, or `NaN`) never moves
it across a `ToIndex` boundary, and in every execution that passes the
`metas` check the remaining arithmetic stays below `2^53` and is exact.
-/

/-- A JavaScript double, represented by its IEEE-754 class and exact value:
`fin x` is the finite double whose value is the rational `x` (`fin 0` is
`+0`), `nzero` is `-0`. -/
inductive JSD where
  | nan
  | pinf
  | ninf
  | nzero
  | fin (x : ℚ)
deriving DecidableEq

/-- The ECMA-262 `ToIndex` conversion: truncate toward zero; `NaN`, `-0` and fractions in
`(-1, 0)` give 0; a result below 0 or above `2^53 - 1` (including the
infinities) raises a `RangeError` (`none`). -/
def toIndex : JSD → Option Nat
  | .nan => some 0
  | .pinf => none
  | .ninf => none
  | .nzero => some 0
  | .fin x =>
      if x ≤ -1 then none
      else if x < 0 then some 0
      else if (2 ^ 53 : ℚ) ≤ x then none
      else some (Int.toNat ⌊x⌋)

theorem toIndex_nzero : toIndex .nzero = some 0 := rfl

/-- Identity key: the ascending comparator over indices themselves. -/
def exKeyA : Nat → Nat := fun n => n

/-- A reachable single-element list: capacity 10, one level, `insert 4`. -/
def exOne : FixedSkipList :=
  (FixedSkipList.fresh 10 1 (keyCompare exKeyA)).insert 4 0

/-- Keys 1 ↦ 10, 0 ↦ 20, 2 ↦ 30: indices are appended in ascending key
order, so index 0 sits mid-chain while the stale cell `nexts[0][2]` holds the
zero-initialised value 0. -/
def exKeyBug : Nat → Nat :=
  fun n => if n = 1 then 10 else if n = 0 then 20 else if n = 2 then 30 else 99

/-- The two-element state `[1, 0]` (keys 10, 20). -/
def exPair : FixedSkipList :=
  ((FixedSkipList.fresh 10 1 (keyCompare exKeyBug)).insert 1 0).insert 0 0

/-- `exPair` after `insert 2; remove 2`: the removal of the tail writes
`prev[next[2]] = prev[0] := 1`-worth of garbage through the stale cell
`nexts[0][2] = 0`. -/
def exPairBroken : FixedSkipList :=
  (exPair.insert 2 0).remove 2

/-- Keys 1 ↦ 10, 0 ↦ 20, 3 ↦ 30, 2 ↦ 40, 4 ↦ 50. -/
def exKeyBug2 : Nat → Nat :=
  fun n =>
    if n = 1 then 10 else if n = 0 then 20 else if n = 3 then 30
    else if n = 2 then 40 else if n = 4 then 50 else 99

/-- `insert 1; insert 0; insert 3; insert 2` builds chain `[1, 0, 3, 2]` by
appends. -/
def exFour : FixedSkipList :=
  ((((FixedSkipList.fresh 10 1 (keyCompare exKeyBug2)).insert 1 0).insert 0
    0).insert 3 0).insert 2 0

/-- `exFour` after `remove 2; insert 4; remove 3`: forward chain `[1, 0, 4]`,
but `prev[0]` still points at the removed index 3. -/
def exGhost : FixedSkipList :=
  ((exFour.remove 2).insert 4 0).remove 3

/-!
## Reachability of the example states
-/

theorem reach_exOne : Reachable exKeyA exOne :=
  Reachable.insert 4 0 (Reachable.init 10 1 (by decide)) (by decide) (by decide)
    (by decide)

theorem reach_exOneGone : Reachable exKeyA (exOne.remove 4) :=
  Reachable.remove 4 reach_exOne (by decide)

theorem reach_exPair : Reachable exKeyBug exPair :=
  Reachable.insert 0 0
    (Reachable.insert 1 0 (Reachable.init 10 1 (by decide)) (by decide)
      (by decide) (by decide))
    (by decide) (by decide) (by decide)

theorem reach_exPairBroken : Reachable exKeyBug exPairBroken :=
  Reachable.remove 2
    (Reachable.insert 2 0 reach_exPair (by decide) (by decide) (by decide))
    (by decide)

theorem reach_exFour : Reachable exKeyBug2 exFour :=
  Reachable.insert 2 0
    (Reachable.insert 3 0
      (Reachable.insert 0 0
        (Reachable.insert 1 0 (Reachable.init 10 1 (by decide)) (by decide)
          (by decide) (by decide))
        (by decide) (by decide) (by decide))
      (by decide) (by decide) (by decide))
    (by decide) (by decide) (by decide)

theorem reach_exGhost : Reachable exKeyBug2 exGhost :=
  Reachable.remove 3
    (Reachable.insert 4 0 (Reachable.remove 2 reach_exFour (by decide))
      (by decide) (by decide) (by decide))
    (by decide)

/-!
## Counterexamples and bug evaluations
-/

/-- C1: the order/size/insert-position parts hold (main theorem below), but
"after `remove(i)` returns, `i` is not yielded by any traversal" fails: after
the valid sequence `insert 1; insert 0; insert 3; insert 2; remove 2;
insert 4; remove 3` (ascending keys 10, 20, 30, 40, 50), the backward
traversal yields the removed index 3.  `remove 2` wrote
`prev[nexts[0][2]] = prev[0] := 3` through the stale tail cell
`nexts[0][2] = 0`, and removing 3 leaves `prev[0]` dangling at 3. -/
theorem C1_counterexample :
    Reachable exKeyBug2 exGhost ∧
    exGhost = ((exFour.remove 2).insert 4 0).remove 3 ∧
    3 ∉ exGhost.chainAt 0 ∧
    exGhost.iterS = [1, 0, 4] ∧
    exGhost.backwards none none = [4, 0, 3] ∧
    3 ∈ exGhost.backwards none none :=
  ⟨reach_exGhost, rfl, by decide, by decide, by decide, by decide⟩

/-- C2: on a reachable single-element list, a predicate that is false at
every live index makes `bisect` return the head, not `null`: the bottom-level
cursor never leaves `heads[0]`, so the early `return head` fires. -/
theorem C2_counterexample :
    Reachable exKeyA exOne ∧ exOne.chainAt 0 = [4] ∧
    exOne.bisect (fun _ => false) = some 4 :=
  ⟨reach_exOne, by decide, by decide⟩

/-- C4: `insert 2; remove 2` on the reachable state `[1, 0]` (keys 10, 20)
restores `sizes[0]` and the forward iteration but corrupts the backward one:
the removal of the fresh tail 2 writes through the stale cell
`nexts[0][2] = 0`, turning `prev[0]` into a self-loop. -/
theorem C4_counterexample :
    Reachable exKeyBug exPair ∧ 2 < exPair.capacity ∧ 2 ∉ exPair.chainAt 0 ∧
    exPairBroken = (exPair.insert 2 0).remove 2 ∧
    exPairBroken.sizes 0 = exPair.sizes 0 ∧
    exPairBroken.iterS = exPair.iterS ∧
    exPair.backwards none none = [0, 1] ∧
    exPairBroken.backwards none none = [0, 0] :=
  ⟨reach_exPair, by decide, by decide, rfl, by decide, by decide, by decide,
    by decide⟩

/-- C5 (bug evaluation): in the reachable state reached by
`insert 1; insert 0; insert 2; remove 2`, the forward iteration is `[1, 0]`
(so `(1, 0)` is a consecutive pair at level 0) yet `prevs[0][0] = 0`, not 1:
link symmetry is broken by remove's unconditional
`prev[next[index]] = last` through the stale tail cell. -/
theorem C5_bug_eval :
    Reachable exKeyBug exPairBroken ∧ exPairBroken.iterS = [1, 0] ∧
    exPairBroken.prev 0 = 0 ∧ exPairBroken.prev 0 ≠ 1 :=
  ⟨reach_exPairBroken, by decide, by decide, by decide⟩

/-- C6 (bug evaluation): in the same reachable state the backward iteration
is `[0, 0]`, not the reverse `[0, 1]` of the forward iteration `[1, 0]`. -/
theorem C6_bug_eval :
    Reachable exKeyBug exPairBroken ∧
    exPairBroken.forwards none none = [1, 0] ∧
    exPairBroken.backwards none none = [0, 0] ∧
    exPairBroken.backwards none none ≠ (exPairBroken.forwards none none).reverse :=
  ⟨reach_exPairBroken, by decide, by decide, by decide⟩

/-- C7: removing the only element of a reachable list decrements
`currentLevel` from 0 to -1, so "currentLevel remains a non-negative
integer" fails. -/
theorem C7_counterexample :
    Reachable exKeyA (exOne.remove 4) ∧ (exOne.remove 4).currentLevel = -1 :=
  ⟨reach_exOneGone, by decide⟩

namespace FixedSkipList

theorem walk_length (f : Nat → Nat) : ∀ (n s : Nat), (walk f s n).length = n
  | 0, _ => rfl
  | n + 1, s => by simpa [walk] using walk_length f n (f s)

theorem walk_dropLast (f : Nat → Nat) :
    ∀ (n s : Nat), (walk f s (n + 1)).dropLast = walk f s n
  | 0, _ => rfl
  | n + 1, s => by
    show (s :: walk f (f s) (n + 1)).dropLast = s :: walk f (f s) n
    rw [List.dropLast_cons_of_ne_nil, walk_dropLast f n (f s)]
    intro h
    have := congrArg List.length h
    simp [walk_length] at this

theorem walk_congr {f g : Nat → Nat} :
    ∀ (n s : Nat), (∀ x ∈ walk f s n, g x = f x) →
      walk g s (n + 1) = walk f s (n + 1)
  | 0, s, _ => rfl
  | n + 1, s, h => by
    have hs : g s = f s := h s (by simp [walk])
    show s :: walk g (g s) (n + 1) = s :: walk f (f s) (n + 1)
    rw [hs, walk_congr n (f s) fun x hx => h x (by simp [walk, hx])]

theorem walk_tail {f : Nat → Nat} {s n : Nat} {B : List Nat}
    (h : walk f s (n + 1) = s :: B) : walk f (f s) n = B := by
  simpa [walk] using h

theorem walk_suffix {f : Nat → Nat} {b : Nat} {B : List Nat} :
    ∀ {A : List Nat} {s n : Nat}, walk f s n = A ++ b :: B →
      walk f b (B.length + 1) = b :: B
  | [], s, n, h => by
    cases n with
    | zero => simp [walk] at h
    | succ m =>
      simp only [walk, List.nil_append, List.cons.injEq] at h
      obtain ⟨rfl, h2⟩ := h
      have hm : m = B.length := by
        have := walk_length f m (f s); rw [h2] at this; omega
      subst hm
      show s :: walk f (f s) B.length = s :: B
      rw [h2]
  | a :: A, s, n, h => by
    cases n with
    | zero => simp [walk] at h
    | succ m =>
      simp only [walk, List.cons_append, List.cons.injEq] at h
      exact walk_suffix (A := A) h.2

theorem mem_of_getLast? {l : List Nat} {t : Nat} (h : l.getLast? = some t) :
    t ∈ l := by
  obtain ⟨h1, h2⟩ := List.mem_getLast?_eq_getLast (Option.mem_def.mpr h)
  exact h2 ▸ List.getLast_mem h1

theorem walk_next {f : Nat → Nat} {x y : Nat} {B : List Nat} :
    ∀ {A : List Nat} {s n : Nat}, walk f s n = A ++ x :: y :: B → f x = y
  | [], s, n, h => by
    cases n with
    | zero => simp [walk] at h
    | succ m =>
      simp only [walk, List.nil_append, List.cons.injEq] at h
      obtain ⟨rfl, h2⟩ := h
      cases m with
      | zero => simp [walk] at h2
      | succ k =>
        simp only [walk, List.cons.injEq] at h2
        exact h2.1
  | a :: A, s, n, h => by
    cases n with
    | zero => simp [walk] at h
    | succ m =>
      simp only [walk, List.cons_append, List.cons.injEq] at h
      exact walk_next (A := A) h.2

theorem walk_snoc {f : Nat → Nat} {t v : Nat} :
    ∀ {n s : Nat} {c : List Nat}, walk f s n = c → c.Nodup →
      c.getLast? = some t →
      walk (Function.update f t v) s (n + 1) = c ++ [v]
  | 0, s, c, h, _, hl => by subst h; simp [walk] at hl
  | 1, s, c, h, _, hl => by
    simp only [walk] at h
    subst h
    simp only [List.getLast?_singleton, Option.some.injEq] at hl
    subst hl
    show s :: walk (Function.update f s v) (Function.update f s v s) 1 = [s, v]
    simp [walk, Function.update_same]
  | n + 2, s, c, h, hd, hl => by
    have hshape : c = s :: walk f (f s) (n + 1) := h.symm
    subst hshape
    have hne : walk f (f s) (n + 1) ≠ [] := by
      intro h0
      have := congrArg List.length h0
      simp [walk_length] at this
    have hl' : (walk f (f s) (n + 1)).getLast? = some t := by
      rwa [show (s :: walk f (f s) (n + 1)) = [s] ++ walk f (f s) (n + 1) from rfl,
        List.getLast?_append_of_ne_nil [s] hne] at hl
    have hst : s ≠ t := by
      intro h0
      subst h0
      exact (List.nodup_cons.mp hd).1 (mem_of_getLast? hl')
    show s :: walk (Function.update f t v) (Function.update f t v s) (n + 2) =
      (s :: walk f (f s) (n + 1)) ++ [v]
    rw [Function.update_noteq hst,
      walk_snoc rfl (List.nodup_cons.mp hd).2 hl']
    rfl

theorem walk_splice {f : Nat → Nat} {p i b : Nat} {B : List Nat} :
    ∀ {A : List Nat} {s n : Nat}, walk f s n = A ++ p :: b :: B →
      (A ++ p :: b :: B).Nodup → i ∉ A ++ p :: b :: B →
      walk (Function.update (Function.update f p i) i b) s (n + 1) =
        A ++ p :: i :: b :: B
  | [], s, n, h, hd, hi => by
    cases n with
    | zero => simp [walk] at h
    | succ m =>
      simp only [walk, List.nil_append, List.cons.injEq] at h
      obtain ⟨hsp, h2⟩ := h
      subst hsp
      have hm : m = B.length + 1 := by
        have := walk_length f m (f s); rw [h2] at this; simp at this; omega
      subst hm
      have hpi : s ≠ i := fun h0 => hi (h0 ▸ List.mem_cons_self s _)
      have hfs : f s = b := by
        have := congrArg List.head? h2
        simpa [walk] using this
      have hwb : walk f b (B.length + 1) = b :: B := by rw [hfs] at h2; exact h2
      have hpB : s ∉ b :: B := by
        have hh : (s :: b :: B).Nodup := by simpa using hd
        exact (List.nodup_cons.mp hh).1
      have hbB : walk (Function.update (Function.update f s i) i b) b
          (B.length + 1) = b :: B := by
        cases hb2 : B.length with
        | zero =>
          rw [List.length_eq_zero.mp hb2] at hwb ⊢
          simp [walk] at hwb ⊢
        | succ k =>
          rw [hb2] at hwb
          rw [← hwb]
          apply walk_congr
          intro x hx
          have hxmem : x ∈ b :: B := by
            rw [← hwb]
            show x ∈ walk f b (k + 2)
            have hdrop : walk f b (k + 1) = (walk f b (k + 2)).dropLast :=
              (walk_dropLast f (k + 1) b).symm
            rw [hdrop] at hx
            exact List.dropLast_subset _ hx
          have hxp : x ≠ s := fun h0 => hpB (h0 ▸ hxmem)
          have hxi : x ≠ i := by
            intro h0
            subst h0
            exact hi (by simpa using List.mem_cons_of_mem s hxmem)
          rw [Function.update_noteq hxi, Function.update_noteq hxp]
      have hgp : Function.update (Function.update f s i) i b s = i := by
        rw [Function.update_noteq hpi, Function.update_same]
      have hgi : Function.update (Function.update f s i) i b i = b := by simp
      show s :: walk (Function.update (Function.update f s i) i b)
        (Function.update (Function.update f s i) i b s) (B.length + 2) =
        s :: i :: b :: B
      rw [hgp]
      show s :: i :: walk (Function.update (Function.update f s i) i b)
        (Function.update (Function.update f s i) i b i) (B.length + 1) =
        s :: i :: b :: B
      rw [hgi, hbB]
  | a :: A, s, n, h, hd, hi => by
    cases n with
    | zero => simp [walk] at h
    | succ m =>
      simp only [walk, List.cons_append, List.cons.injEq] at h
      obtain ⟨hsa, h2⟩ := h
      subst hsa
      have hap : s ≠ p := by
        intro h0
        subst h0
        exact (List.nodup_cons.mp hd).1
          (List.mem_append_right A (List.mem_cons_self s _))
      have hai : s ≠ i := fun h0 => hi (h0 ▸ List.mem_cons_self s _)
      have hrec := walk_splice (A := A) h2 (List.nodup_cons.mp hd).2
        (fun h0 => hi (List.mem_cons_of_mem s h0))
      show s :: walk (Function.update (Function.update f p i) i b)
        (Function.update (Function.update f p i) i b s) (m + 1) =
        s :: (A ++ p :: i :: b :: B)
      rw [Function.update_noteq hai, Function.update_noteq hap, hrec]

theorem walk_take (f : Nat → Nat) :
    ∀ (n : Nat) {m : Nat} (s : Nat), n ≤ m → (walk f s m).take n = walk f s n
  | 0, _, _, _ => by simp [walk]
  | n + 1, m, s, h => by
    cases m with
    | zero => omega
    | succ m2 =>
      show (s :: walk f (f s) m2).take (n + 1) = s :: walk f (f s) n
      rw [List.take_succ_cons, walk_take f n (f s) (by omega)]

theorem walk_unsplice_mid {f : Nat → Nat} {q i b : Nat} {B : List Nat} :
    ∀ {A : List Nat} {s n : Nat}, walk f s n = A ++ q :: i :: b :: B →
      (A ++ q :: i :: b :: B).Nodup →
      walk (Function.update f q (f i)) s (n - 1) = A ++ q :: b :: B
  | [], s, n, h, hd => by
    cases n with
    | zero => simp [walk] at h
    | succ m =>
      simp only [walk, List.nil_append, List.cons.injEq] at h
      obtain ⟨hsq, h2⟩ := h
      subst hsq
      have hm : m = B.length + 2 := by
        have := walk_length f m (f s); rw [h2] at this; simp at this; omega
      subst hm
      have hfi : f i = b := walk_next (A := [s]) (s := s) (n := B.length + 3)
        (by show s :: walk f (f s) (B.length + 2) = [s] ++ i :: b :: B
            simpa using h2)
      have hwb : walk f b (B.length + 1) = b :: B :=
        walk_suffix (A := [s, i]) (s := s) (n := B.length + 3)
          (by show s :: walk f (f s) (B.length + 2) = [s, i] ++ b :: B
              simpa using h2)
      have hsB : s ∉ i :: b :: B := (List.nodup_cons.mp (by simpa using hd)).1
      have hbB : walk (Function.update f s b) b (B.length + 1) = b :: B := by
        cases hb2 : B.length with
        | zero =>
          rw [List.length_eq_zero.mp hb2] at hwb ⊢
          simp [walk] at hwb ⊢
        | succ k =>
          rw [hb2] at hwb
          rw [← hwb]
          apply walk_congr
          intro x hx
          have hxmem : x ∈ b :: B := by
            rw [← hwb]
            show x ∈ walk f b (k + 2)
            have hdrop : walk f b (k + 1) = (walk f b (k + 2)).dropLast :=
              (walk_dropLast f (k + 1) b).symm
            rw [hdrop] at hx
            exact List.dropLast_subset _ hx
          have hxs : x ≠ s := fun h0 =>
            hsB (h0 ▸ List.mem_cons_of_mem i hxmem)
          rw [Function.update_noteq hxs]
      rw [hfi]
      show s :: walk (Function.update f s b)
        (Function.update f s b s) (B.length + 1) = s :: b :: B
      rw [Function.update_same, hbB]
  | a :: A, s, n, h, hd => by
    cases n with
    | zero => simp [walk] at h
    | succ m =>
      simp only [walk, List.cons_append, List.cons.injEq] at h
      obtain ⟨hsa, h2⟩ := h
      subst hsa
      have hsq : s ≠ q := by
        intro h0
        subst h0
        exact (List.nodup_cons.mp hd).1
          (List.mem_append_right A (List.mem_cons_self s _))
      have hm : m = A.length + 3 + B.length := by
        have := walk_length f m (f s); rw [h2] at this; simp at this; omega
      have hrec := walk_unsplice_mid (A := A) h2 (List.nodup_cons.mp hd).2
      cases m with
      | zero => omega
      | succ m2 =>
        show s :: walk (Function.update f q (f i))
          (Function.update f q (f i) s) m2 = s :: (A ++ q :: b :: B)
        rw [Function.update_noteq hsq]
        simpa using hrec

theorem walk_unsplice_last {f : Nat → Nat} {q i v : Nat} :
    ∀ {A : List Nat} {s n : Nat}, walk f s n = A ++ [q, i] →
      (A ++ [q, i]).Nodup →
      walk (Function.update f q v) s (n - 1) = A ++ [q]
  | [], s, n, h, _ => by
    cases n with
    | zero => simp [walk] at h
    | succ m =>
      simp only [walk, List.nil_append, List.cons.injEq] at h
      obtain ⟨hsq, h2⟩ := h
      subst hsq
      have hm : m = 1 := by
        have := walk_length f m (f s); rw [h2] at this; simp at this; omega
      subst hm
      simp [walk]
  | a :: A, s, n, h, hd => by
    cases n with
    | zero => simp [walk] at h
    | succ m =>
      simp only [walk, List.cons_append, List.cons.injEq] at h
      obtain ⟨hsa, h2⟩ := h
      subst hsa
      have hsq : s ≠ q := by
        intro h0
        subst h0
        exact (List.nodup_cons.mp hd).1
          (List.mem_append_right A (by simp))
      have hm : m = A.length + 2 := by
        have := walk_length f m (f s); rw [h2] at this; simp at this; omega
      have hrec := walk_unsplice_last (v := v) (A := A) h2 (List.nodup_cons.mp hd).2
      cases m with
      | zero => omega
      | succ m2 =>
        show s :: walk (Function.update f q v)
          (Function.update f q v s) m2 = s :: (A ++ [q])
        rw [Function.update_noteq hsq]
        simpa using hrec

end FixedSkipList

/-!
## Comparator and sorted-insertion toolkit
-/

section OrderToolkit

variable {K : Type} [LinearOrder K] {key : Nat → K}

theorem keyCompare_lt_iff {a b : Nat} :
    keyCompare key a b < 0 ↔ key a < key b := by
  unfold keyCompare
  split_ifs with h1 h2
  · simpa using h1
  · simp only [show ¬((1 : Int) < 0) from by omega, false_iff]
    exact h1
  · simp only [show ¬((0 : Int) < 0) from by omega, false_iff]
    exact h1

theorem keyCompare_nonneg_iff {a b : Nat} :
    0 ≤ keyCompare key a b ↔ ¬ key a < key b := by
  unfold keyCompare
  split_ifs with h1 h2
  · simp only [show ¬((0 : Int) ≤ -1) from by omega, false_iff, not_not]
    exact h1
  · simpa using h1
  · simpa using h1

theorem sorted_takeWhile_filter (i : Nat) :
    ∀ {c : List Nat}, c.Pairwise (fun a b => key a ≤ key b) →
      c.takeWhile (fun x => !decide (key i < key x)) =
        c.filter (fun x => !decide (key i < key x))
  | [], _ => rfl
  | a :: c, hs => by
    by_cases ha : key i < key a
    · have h1 : (a :: c).takeWhile (fun x => !decide (key i < key x)) = [] := by
        simp [List.takeWhile_cons, ha]
      have h2 : (a :: c).filter (fun x => !decide (key i < key x)) = [] := by
        rw [List.filter_eq_nil_iff]
        intro x hx
        rcases List.mem_cons.mp hx with h | h
        · subst h; simp [ha]
        · have hle : key a ≤ key x := (List.pairwise_cons.mp hs).1 x h
          simp [lt_of_lt_of_le ha hle]
      rw [h1, h2]
    · have h1 : (a :: c).takeWhile (fun x => !decide (key i < key x)) =
          a :: c.takeWhile (fun x => !decide (key i < key x)) := by
        simp [List.takeWhile_cons, ha]
      have h2 : (a :: c).filter (fun x => !decide (key i < key x)) =
          a :: c.filter (fun x => !decide (key i < key x)) := by
        simp [List.filter_cons, ha]
      rw [h1, h2, sorted_takeWhile_filter i (List.pairwise_cons.mp hs).2]

theorem sorted_dropWhile_filter (i : Nat) :
    ∀ {c : List Nat}, c.Pairwise (fun a b => key a ≤ key b) →
      c.dropWhile (fun x => !decide (key i < key x)) =
        c.filter (fun x => decide (key i < key x))
  | [], _ => rfl
  | a :: c, hs => by
    by_cases ha : key i < key a
    · have h1 : (a :: c).dropWhile (fun x => !decide (key i < key x)) =
          a :: c := by
        simp [List.dropWhile_cons, ha]
      have h2 : (a :: c).filter (fun x => decide (key i < key x)) = a :: c := by
        rw [List.filter_cons]
        simp only [ha, decide_True, cond_true, if_true]
        congr 1
        rw [List.filter_eq_self]
        intro x hx
        have hle : key a ≤ key x := (List.pairwise_cons.mp hs).1 x hx
        simp [lt_of_lt_of_le ha hle]
      rw [h1, h2]
    · have h1 : (a :: c).dropWhile (fun x => !decide (key i < key x)) =
          c.dropWhile (fun x => !decide (key i < key x)) := by
        simp [List.dropWhile_cons, ha]
      have h2 : (a :: c).filter (fun x => decide (key i < key x)) =
          c.filter (fun x => decide (key i < key x)) := by
        rw [List.filter_cons]
        simp [ha]
      rw [h1, h2, sorted_dropWhile_filter i (List.pairwise_cons.mp hs).2]

theorem dropWhile_head_not {p : Nat → Bool} :
    ∀ {l : List Nat} {b : Nat} {B : List Nat}, l.dropWhile p = b :: B →
      p b = false
  | [], b, B, h => by simp at h
  | a :: l, b, B, h => by
    rw [List.dropWhile_cons] at h
    by_cases hp : p a
    · rw [if_pos hp] at h
      exact dropWhile_head_not h
    · rw [if_neg hp] at h
      obtain ⟨rfl, -⟩ := List.cons.injEq .. |>.mp h
      simpa using hp

theorem insIdx_perm (i : Nat) (c : List Nat) :
    List.Perm (insIdx key i c) (i :: c) := by
  rw [insIdx]
  refine List.Perm.trans List.perm_middle ?_
  rw [List.takeWhile_append_dropWhile]

theorem insIdx_length (i : Nat) (c : List Nat) :
    (insIdx key i c).length = c.length + 1 := by
  simpa using (@insIdx_perm K _ key i c).length_eq

theorem mem_insIdx {x i : Nat} {c : List Nat} :
    x ∈ insIdx key i c ↔ x = i ∨ x ∈ c := by
  rw [(@insIdx_perm K _ key i c).mem_iff, List.mem_cons]

theorem insIdx_nodup (i : Nat) {c : List Nat} (hi : i ∉ c) (hn : c.Nodup) :
    (insIdx key i c).Nodup :=
  ((@insIdx_perm K _ key i c).nodup_iff).mpr (List.nodup_cons.mpr ⟨hi, hn⟩)

theorem insIdx_pairwise (i : Nat) {c : List Nat}
    (hs : c.Pairwise (fun a b => key a ≤ key b)) :
    (insIdx key i c).Pairwise (fun a b => key a ≤ key b) := by
  rw [insIdx, sorted_takeWhile_filter i hs, sorted_dropWhile_filter i hs,
    List.pairwise_append]
  refine ⟨hs.sublist (List.filter_sublist _), ?_, ?_⟩
  · rw [List.pairwise_cons]
    refine ⟨fun b hb => ?_, hs.sublist (List.filter_sublist _)⟩
    have := (List.mem_filter.mp hb).2
    exact le_of_lt (by simpa using this)
  · intro a ha b hb
    have ha2 : ¬ key i < key a := by
      have := (List.mem_filter.mp ha).2
      simpa using this
    rcases List.mem_cons.mp hb with rfl | hb2
    · exact le_of_not_lt ha2
    · have hb3 : key i < key b := by
        have := (List.mem_filter.mp hb2).2
        simpa using this
      exact le_trans (le_of_not_lt ha2) (le_of_lt hb3)

theorem insIdx_sublist (i : Nat) {s c : List Nat}
    (hss : s.Pairwise (fun a b => key a ≤ key b))
    (hcs : c.Pairwise (fun a b => key a ≤ key b)) (h : List.Sublist s c) :
    List.Sublist (insIdx key i s) (insIdx key i c) := by
  rw [insIdx, insIdx, sorted_takeWhile_filter i hss,
    sorted_dropWhile_filter i hss, sorted_takeWhile_filter i hcs,
    sorted_dropWhile_filter i hcs]
  exact (h.filter _).append ((h.filter _).cons₂ i)

theorem sublist_insIdx (i : Nat) (c : List Nat) :
    List.Sublist c (insIdx key i c) := by
  conv_lhs => rw [← List.takeWhile_append_dropWhile
    (p := fun x => !decide (key i < key x)) (l := c)]
  exact (List.Sublist.refl _).append (List.sublist_cons_self _ _)

end OrderToolkit

/-!
## Scan characterizations

Each per-level loop of `insert`, `remove`, `bisect` and `search` is
characterized against the decomposition of the walked chain.
-/

namespace FixedSkipList

/-- The trailing cursor produced by scanning over `F` having started at
`l₀`. -/
def lastD : List Nat → Option Nat → Option Nat
  | [], l₀ => l₀
  | a :: F, _ => lastD F (some a)

theorem lastD_getLast? {F : List Nat} {l₀ : Option Nat} (h : F ≠ []) :
    lastD F l₀ = F.getLast? := by
  induction F generalizing l₀ with
  | nil => exact absurd rfl h
  | cons a F ih =>
    cases F with
    | nil => rfl
    | cons b F2 =>
      show lastD (b :: F2) (some a) = (a :: b :: F2).getLast?
      rw [ih (by simp), List.getLast?_cons_cons]

theorem walk_eq_cons {f : Nat → Nat} {s n a : Nat} {rest : List Nat}
    (h : walk f s n = a :: rest) :
    s = a ∧ n = rest.length + 1 ∧ walk f (f a) rest.length = rest := by
  cases n with
  | zero => simp [walk] at h
  | succ m =>
    simp only [walk, List.cons.injEq] at h
    obtain ⟨rfl, h2⟩ := h
    have hm : m = rest.length := by
      have := walk_length f m (f s); rw [h2] at this; omega
    subst hm
    exact ⟨rfl, rfl, h2⟩

section ScanSpecs

variable {K : Type} [LinearOrder K] {key : Nat → K}

theorem insScan_spec {f : Nat → Nat} {i b : Nat} :
    ∀ (F : List Nat) {B : List Nat} {l₀ : Option Nat} {c₀ n : Nat} (fuel : Nat),
      walk f c₀ n = F ++ b :: B → (∀ x ∈ F, ¬ key i < key x) →
      key i < key b → F.length + 1 ≤ fuel →
      insScan (keyCompare key) f i fuel l₀ c₀ = some (lastD F l₀, b)
  | [], B, l₀, c₀, n, fuel, hw, _, hb, hfuel => by
    obtain ⟨rfl, -, -⟩ := walk_eq_cons hw
    cases fuel with
    | zero => omega
    | succ fuel2 =>
      show (if keyCompare key i c₀ < 0 then _ else _) = _
      rw [if_pos (keyCompare_lt_iff.mpr hb)]
      rfl
  | a :: F, B, l₀, c₀, n, fuel, hw, hF, hb, hfuel => by
    obtain ⟨rfl, rfl, h2⟩ := walk_eq_cons hw
    cases fuel with
    | zero => simp at hfuel
    | succ fuel2 =>
      show (if keyCompare key i c₀ < 0 then _ else _) = _
      rw [if_neg (by rw [keyCompare_lt_iff]; exact hF c₀ (by simp))]
      exact insScan_spec F fuel2 h2 (fun x hx => hF x (by simp [hx])) hb (by simpa using hfuel)

theorem remScan_found {f : Nat → Nat} {i tail : Nat} :
    ∀ (A : List Nat) {B : List Nat} {l₀ : Option Nat} {c₀ n : Nat} (fuel : Nat),
      walk f c₀ n = A ++ i :: B → i ∉ A → tail ∉ A → A.length + 1 ≤ fuel →
      remScan f i tail fuel l₀ c₀ = some (lastD A l₀)
  | [], B, l₀, c₀, n, fuel, hw, _, _, hfuel => by
    obtain ⟨heq, -, -⟩ := walk_eq_cons hw
    cases fuel with
    | zero => omega
    | succ fuel2 =>
      show (if c₀ = i then _ else _) = _
      rw [if_pos heq]
      rfl
  | a :: A, B, l₀, c₀, n, fuel, hw, hiA, htA, hfuel => by
    obtain ⟨rfl, rfl, h2⟩ := walk_eq_cons hw
    cases fuel with
    | zero => simp at hfuel
    | succ fuel2 =>
      show (if c₀ = i then _ else if c₀ = tail then _ else _) = _
      rw [if_neg (by intro h0; apply hiA; rw [← h0]; exact List.mem_cons_self c₀ A),
        if_neg (by intro h0; apply htA; rw [← h0]; exact List.mem_cons_self c₀ A)]
      exact remScan_found A fuel2 h2 (fun h0 => hiA (List.mem_cons_of_mem _ h0))
        (fun h0 => htA (List.mem_cons_of_mem _ h0)) (by simpa using hfuel)

theorem remScan_notfound {f : Nat → Nat} {i tail : Nat} :
    ∀ (A : List Nat) {l₀ : Option Nat} {c₀ n : Nat} (fuel : Nat),
      walk f c₀ n = A → i ∉ A → A.getLast? = some tail → A.Nodup →
      A.length ≤ fuel →
      remScan f i tail fuel l₀ c₀ = none
  | [], l₀, c₀, n, fuel, hw, _, hl, _, _ => by simp at hl
  | a :: A, l₀, c₀, n, fuel, hw, hiA, hl, hnd, hfuel => by
    obtain ⟨rfl, rfl, h2⟩ := walk_eq_cons hw
    cases fuel with
    | zero => simp at hfuel
    | succ fuel2 =>
      show (if c₀ = i then _ else if c₀ = tail then _ else _) = _
      rw [if_neg (by intro h0; apply hiA; rw [← h0]; exact List.mem_cons_self c₀ A)]
      cases A with
      | nil =>
        simp only [List.getLast?_singleton, Option.some.injEq] at hl
        rw [if_pos hl]
      | cons a2 A2 =>
        have hlt : (a2 :: A2).getLast? = some tail := by
          rwa [List.getLast?_cons_cons] at hl
        have hta : c₀ ≠ tail := by
          intro h0
          subst h0
          exact (List.nodup_cons.mp hnd).1 (mem_of_getLast? hlt)
        rw [if_neg hta]
        exact remScan_notfound (a2 :: A2) fuel2 h2
          (fun h0 => hiA (List.mem_cons_of_mem _ h0)) hlt
          (List.nodup_cons.mp hnd).2 (by simpa using hfuel)

theorem biScan_true {P : Nat → Bool} {f : Nat → Nat} {tail b : Nat} :
    ∀ (F : List Nat) {B : List Nat} {l₀ : Option Nat} {c₀ n : Nat} (fuel : Nat),
      walk f c₀ n = F ++ b :: B → (∀ x ∈ F, P x = false) → P b = true →
      tail ∉ F → F.length + 1 ≤ fuel →
      biScan P f tail fuel l₀ c₀ = (some (lastD F l₀), b)
  | [], B, l₀, c₀, n, fuel, hw, _, hb, _, hfuel => by
    obtain ⟨rfl, -, -⟩ := walk_eq_cons hw
    cases fuel with
    | zero => omega
    | succ fuel2 =>
      show (if P c₀ then _ else _) = _
      rw [if_pos hb]
      rfl
  | a :: F, B, l₀, c₀, n, fuel, hw, hF, hb, htF, hfuel => by
    obtain ⟨rfl, rfl, h2⟩ := walk_eq_cons hw
    cases fuel with
    | zero => simp at hfuel
    | succ fuel2 =>
      show (if P c₀ then _ else if c₀ = tail then _ else _) = _
      rw [if_neg (by rw [hF c₀ (by simp)]; simp),
        if_neg (by intro h0; apply htF; rw [← h0]; exact List.mem_cons_self c₀ F)]
      exact biScan_true F fuel2 h2 (fun x hx => hF x (by simp [hx])) hb
        (fun h0 => htF (List.mem_cons_of_mem _ h0)) (by simpa using hfuel)

theorem biScan_false {P : Nat → Bool} {f : Nat → Nat} {tail : Nat} :
    ∀ (A : List Nat) {l₀ : Option Nat} {c₀ n : Nat} (fuel : Nat),
      walk f c₀ n = A → (∀ x ∈ A, P x = false) → A.getLast? = some tail →
      A.Nodup → A.length ≤ fuel →
      biScan P f tail fuel l₀ c₀ = (none, tail)
  | [], l₀, c₀, n, fuel, hw, _, hl, _, _ => by simp at hl
  | a :: A, l₀, c₀, n, fuel, hw, hA, hl, hnd, hfuel => by
    obtain ⟨rfl, rfl, h2⟩ := walk_eq_cons hw
    cases fuel with
    | zero => simp at hfuel
    | succ fuel2 =>
      show (if P c₀ then _ else if c₀ = tail then _ else _) = _
      rw [if_neg (by rw [hA c₀ (by simp)]; simp)]
      cases A with
      | nil =>
        simp only [List.getLast?_singleton, Option.some.injEq] at hl
        rw [if_pos hl, hl]
      | cons a2 A2 =>
        have hlt : (a2 :: A2).getLast? = some tail := by
          rwa [List.getLast?_cons_cons] at hl
        have hta : c₀ ≠ tail := by
          intro h0
          subst h0
          exact (List.nodup_cons.mp hnd).1 (mem_of_getLast? hlt)
        rw [if_neg hta]
        exact biScan_false (a2 :: A2) fuel2 h2
          (fun x hx => hA x (List.mem_cons_of_mem _ hx)) hlt
          (List.nodup_cons.mp hnd).2 (by simpa using hfuel)

theorem seScan_stuck {m : Nat → Int} {f : Nat → Nat} {tail : Nat}
    (fuel : Nat) (c₀ : Nat) :
    seScan m f tail fuel (some tail) c₀ = (none, some tail) := by
  cases fuel with
  | zero => rfl
  | succ fuel2 =>
    show (if (some tail : Option Nat) = some tail then _ else _) = _
    rw [if_pos rfl]

theorem seScan_break {m : Nat → Int} {f : Nat → Nat} {tail b : Nat} :
    ∀ (F : List Nat) {B : List Nat} {l₀ : Option Nat} {c₀ n : Nat} (fuel : Nat),
      walk f c₀ n = F ++ b :: B → (∀ x ∈ F, m x < 0) → 0 ≤ m b →
      l₀ ≠ some tail → tail ∉ F → F.length + 1 ≤ fuel →
      seScan m f tail fuel l₀ c₀ =
        (if m b = 0 then some b else none, lastD F l₀)
  | [], B, l₀, c₀, n, fuel, hw, _, hb, hl₀, _, hfuel => by
    obtain ⟨rfl, -, -⟩ := walk_eq_cons hw
    cases fuel with
    | zero => omega
    | succ fuel2 =>
      show (if l₀ = some tail then _ else if 0 ≤ m c₀ then _ else _) = _
      rw [if_neg hl₀, if_pos hb]
      rfl
  | a :: F, B, l₀, c₀, n, fuel, hw, hF, hb, hl₀, htF, hfuel => by
    obtain ⟨rfl, rfl, h2⟩ := walk_eq_cons hw
    cases fuel with
    | zero => simp at hfuel
    | succ fuel2 =>
      show (if l₀ = some tail then _ else if 0 ≤ m c₀ then _ else _) = _
      rw [if_neg hl₀, if_neg (by simpa using hF c₀ (by simp))]
      exact seScan_break F fuel2 h2 (fun x hx => hF x (by simp [hx])) hb
        (by simp only [ne_eq, Option.some.injEq]
            intro h0
            apply htF
            rw [← h0]
            exact List.mem_cons_self c₀ F)
        (fun h0 => htF (List.mem_cons_of_mem _ h0)) (by simpa using hfuel)

theorem seScan_off {m : Nat → Int} {f : Nat → Nat} {tail : Nat} :
    ∀ (A : List Nat) {l₀ : Option Nat} {c₀ n : Nat} (fuel : Nat),
      walk f c₀ n = A → (∀ x ∈ A, m x < 0) → A.getLast? = some tail →
      A.Nodup → l₀ ≠ some tail → A.length ≤ fuel →
      seScan m f tail fuel l₀ c₀ = (none, some tail)
  | [], l₀, c₀, n, fuel, hw, _, hl, _, _, _ => by simp at hl
  | a :: A, l₀, c₀, n, fuel, hw, hA, hl, hnd, hl₀, hfuel => by
    obtain ⟨rfl, rfl, h2⟩ := walk_eq_cons hw
    cases fuel with
    | zero => simp at hfuel
    | succ fuel2 =>
      show (if l₀ = some tail then _ else if 0 ≤ m c₀ then _ else _) = _
      rw [if_neg hl₀, if_neg (by simpa using hA c₀ (by simp))]
      cases A with
      | nil =>
        simp only [List.getLast?_singleton, Option.some.injEq] at hl
        subst hl
        exact seScan_stuck fuel2 (f c₀)
      | cons a2 A2 =>
        have hlt : (a2 :: A2).getLast? = some tail := by
          rwa [List.getLast?_cons_cons] at hl
        have hta : c₀ ≠ tail := by
          intro h0
          subst h0
          exact (List.nodup_cons.mp hnd).1 (mem_of_getLast? hlt)
        exact seScan_off (a2 :: A2) fuel2 h2
          (fun x hx => hA x (List.mem_cons_of_mem _ hx)) hlt
          (List.nodup_cons.mp hnd).2 (by simpa using hta) (by simpa using hfuel)

end ScanSpecs

theorem chainAt_ext {σ τ : FixedSkipList} {l : Nat} (h1 : τ.nexts l = σ.nexts l)
    (h2 : τ.heads l = σ.heads l) (h3 : τ.sizes l = σ.sizes l) :
    chainAt τ l = chainAt σ l := by
  rw [chainAt, chainAt, h1, h2, h3]

theorem insertStep_frame (σ : FixedSkipList) (i insLv l : Nat) (pt : Option Nat) :
    ((insertStep σ i insLv l pt).1.currentLevel = σ.currentLevel ∧
     (insertStep σ i insLv l pt).1.capacity = σ.capacity ∧
     (insertStep σ i insLv l pt).1.maxLevel = σ.maxLevel ∧
     (insertStep σ i insLv l pt).1.compare = σ.compare) ∧
    ∀ l2, l2 ≠ l →
      ((insertStep σ i insLv l pt).1.nexts l2 = σ.nexts l2 ∧
       (insertStep σ i insLv l pt).1.heads l2 = σ.heads l2 ∧
       (insertStep σ i insLv l pt).1.tails l2 = σ.tails l2 ∧
       (insertStep σ i insLv l pt).1.sizes l2 = σ.sizes l2) := by
  unfold insertStep
  dsimp only
  repeat' split
  all_goals
    refine ⟨⟨rfl, rfl, rfl, rfl⟩, fun l2 hl2 => ⟨?_, ?_, ?_, ?_⟩⟩ <;>
      simp [upd2, Function.update_apply, hl2]

theorem removeStep_frame (σ : FixedSkipList) (i l : Nat) (pt : Option Nat) :
    ((removeStep σ i l pt).1.capacity = σ.capacity ∧
     (removeStep σ i l pt).1.maxLevel = σ.maxLevel ∧
     (removeStep σ i l pt).1.compare = σ.compare) ∧
    ∀ l2, l2 ≠ l →
      ((removeStep σ i l pt).1.nexts l2 = σ.nexts l2 ∧
       (removeStep σ i l pt).1.heads l2 = σ.heads l2 ∧
       (removeStep σ i l pt).1.tails l2 = σ.tails l2 ∧
       (removeStep σ i l pt).1.sizes l2 = σ.sizes l2) := by
  unfold removeStep
  dsimp only
  repeat' split
  all_goals
    refine ⟨⟨rfl, rfl, rfl⟩, fun l2 hl2 => ⟨?_, ?_, ?_, ?_⟩⟩ <;>
      simp [upd2, Function.update_apply, hl2]

end FixedSkipList

/-!
## The per-level insert lemma
-/

namespace FixedSkipList

theorem lastD_cons (a : Nat) (F : List Nat) (x : Option Nat) :
    lastD (a :: F) x = lastD F (some a) := rfl

theorem lastD_cons_getLast? :
    ∀ (F : List Nat) (x : Nat), lastD F (some x) = (x :: F).getLast?
  | [], x => rfl
  | a :: F, x => by
    show lastD F (some a) = (x :: a :: F).getLast?
    rw [lastD_cons_getLast? F a, List.getLast?_cons_cons]

theorem pairwise_le_getLast {K : Type} [LinearOrder K] {key : Nat → K} :
    ∀ {c : List Nat} {t : Nat}, c.Pairwise (fun a b => key a ≤ key b) →
      c.getLast? = some t → ∀ x ∈ c, key x ≤ key t
  | [], t, _, hl => by simp at hl
  | a :: c, t, hp, hl => by
    intro x hx
    cases c with
    | nil =>
      simp only [List.getLast?_singleton, Option.some.injEq] at hl
      rcases List.mem_singleton.mp hx with rfl
      rw [hl]
    | cons b c2 =>
      rw [List.getLast?_cons_cons] at hl
      rcases List.mem_cons.mp hx with rfl | hx2
      · exact (List.pairwise_cons.mp hp).1 t (mem_of_getLast? hl)
      · exact pairwise_le_getLast (List.pairwise_cons.mp hp).2 hl x hx2

theorem chainAt_cons {σ : FixedSkipList} {l : Nat} (hn : 1 ≤ σ.sizes l) :
    chainAt σ l =
      σ.heads l :: walk (σ.nexts l) (σ.nexts l (σ.heads l)) (σ.sizes l - 1) := by
  rw [chainAt]
  obtain ⟨m, hm⟩ : ∃ m, σ.sizes l = m + 1 := ⟨σ.sizes l - 1, by omega⟩
  rw [hm]
  rfl

theorem chainAt_prevIf (b : Prop) [Decidable b] (σ₂ : FixedSkipList)
    (u : Nat → Nat) (l : Nat) :
    chainAt (if b then { σ₂ with prev := u } else σ₂) l = chainAt σ₂ l ∧
    (if b then { σ₂ with prev := u } else σ₂).sizes = σ₂.sizes ∧
    (if b then { σ₂ with prev := u } else σ₂).tails = σ₂.tails := by
  split
  · exact ⟨rfl, rfl, rfl⟩
  · exact ⟨rfl, rfl, rfl⟩

theorem interior_chain {K : Type} [LinearOrder K] {key : Nat → K}
    {f : Nat → Nat} {h i q b n : Nat} {c TW : List Nat} {B : List Nat}
    (hc : walk f h n = c)
    (hTW : c.takeWhile (fun x => !decide (key i < key x)) = TW)
    (hDW : c.dropWhile (fun x => !decide (key i < key x)) = b :: B)
    (hq : TW.getLast? = some q)
    (hnd : c.Nodup) (hi : i ∉ c) :
    walk (Function.update (Function.update f q i) i b) h (n + 1) =
      insIdx key i c ∧
    (insIdx key i c).getLast? = c.getLast? := by
  have hqTW : TW.dropLast ++ [q] = TW :=
    List.dropLast_append_getLast? q (Option.mem_def.mpr hq)
  have hcsplit : TW ++ b :: B = c := by
    rw [← hTW, ← hDW]
    exact List.takeWhile_append_dropWhile (p := fun x => !decide (key i < key x))
      (l := c)
  have hc2 : c = TW.dropLast ++ q :: b :: B := by
    rw [← hcsplit]
    conv_lhs => rw [← hqTW]
    simp
  have hIns : insIdx key i c = TW ++ i :: b :: B := by
    rw [insIdx, hTW, hDW]
  constructor
  · rw [hIns, ← hqTW, List.append_assoc]
    show walk (Function.update (Function.update f q i) i b) h (n + 1) =
      TW.dropLast ++ q :: i :: b :: B
    exact walk_splice (by rw [hc, hc2]) (by rw [← hc2]; exact hnd)
      (by rw [← hc2]; exact hi)
  · rw [hIns, ← hcsplit, List.getLast?_append_cons, List.getLast?_append_cons,
      List.getLast?_cons_cons]

set_option maxHeartbeats 1000000 in
theorem insertStep_main {K : Type} [LinearOrder K] {key : Nat → K}
    {σ : FixedSkipList} {i insLv l : Nat} {pt : Option Nat}
    (hcmp : σ.compare = keyCompare key)
    (hs : (chainAt σ l).Pairwise (fun a b => key a ≤ key b))
    (hnd : (chainAt σ l).Nodup)
    (htl : σ.sizes l ≠ 0 → (chainAt σ l).getLast? = some (σ.tails l))
    (hi : i ∉ chainAt σ l)
    (hpt : pt = none ∨ ∃ p, pt = some p ∧ p ∈ chainAt σ l ∧ ¬ key i < key p) :
    (insertStep σ i insLv l pt).2.1 =
      ((chainAt σ l).takeWhile (fun x => !decide (key i < key x))).getLast? ∧
    (insertStep σ i insLv l pt).2.2 = false ∧
    (¬ l ≤ insLv → (insertStep σ i insLv l pt).1 = σ) ∧
    (l ≤ insLv →
      chainAt (insertStep σ i insLv l pt).1 l = insIdx key i (chainAt σ l) ∧
      (insertStep σ i insLv l pt).1.sizes l = σ.sizes l + 1 ∧
      (chainAt (insertStep σ i insLv l pt).1 l).getLast? =
        some ((insertStep σ i insLv l pt).1.tails l)) := by
  unfold insertStep
  dsimp only
  by_cases hn : 1 ≤ σ.sizes l
  case neg =>
    rw [if_neg hn]
    have hn0 : σ.sizes l = 0 := by omega
    have hc : chainAt σ l = [] := by rw [chainAt, hn0]; rfl
    refine ⟨by rw [hc]; rfl, rfl, fun h0 => ?_, fun h0 => ?_⟩
    · dsimp only
      rw [if_neg h0, if_neg h0]
    · dsimp only
      rw [if_pos h0, if_pos h0]
      refine ⟨?_, ?_, ?_⟩
      · rw [hc]
        have hx : insIdx key i ([] : List Nat) = [i] := by simp [insIdx]
        rw [hx, chainAt]
        dsimp only
        simp only [Function.update_same]
        rw [hn0]
        rfl
      · dsimp only
        simp only [Function.update_same]
      · rw [chainAt]
        dsimp only
        simp only [Function.update_same]
        rw [hn0]
        rfl
  case pos =>
    rw [if_pos hn]
    have hcl : (chainAt σ l).length = σ.sizes l := walk_length _ _ _
    have hc2 := chainAt_cons hn
    by_cases hhd : σ.compare i (σ.heads l) < 0
    case pos =>
      rw [if_pos hhd]
      have hkey : key i < key (σ.heads l) := keyCompare_lt_iff.mp (by
        rw [← hcmp]; exact hhd)
      have hTW : (chainAt σ l).takeWhile (fun x => !decide (key i < key x)) =
          [] := by
        rw [hc2]
        simp [List.takeWhile_cons, hkey]
      have hDWe : (chainAt σ l).dropWhile (fun x => !decide (key i < key x)) =
          chainAt σ l := by
        conv_lhs => rw [hc2]
        conv_rhs => rw [hc2]
        simp [List.dropWhile_cons, hkey]
      have hIns : insIdx key i (chainAt σ l) = i :: chainAt σ l := by
        rw [insIdx, hTW, hDWe]
        rfl
      by_cases hins : l ≤ insLv
      case neg =>
        rw [if_neg hins, if_neg hins]
        exact ⟨by rw [hTW]; rfl, rfl, fun _ => rfl, fun h0 => absurd h0 hins⟩
      case pos =>
        rw [if_pos hins, if_pos hins]
        refine ⟨by rw [hTW]; rfl, rfl, fun h0 => absurd hins h0, fun _ => ?_⟩
        have hwalk : walk (Function.update (σ.nexts l) i (σ.heads l)) i
            (σ.sizes l + 1) = i :: chainAt σ l := by
          obtain ⟨m, hm⟩ : ∃ m, σ.sizes l = m + 1 := ⟨σ.sizes l - 1, by omega⟩
          rw [hm]
          show i :: walk (Function.update (σ.nexts l) i (σ.heads l))
            (Function.update (σ.nexts l) i (σ.heads l) i) (m + 1) =
            i :: chainAt σ l
          rw [Function.update_same]
          congr 1
          have hagree : ∀ x ∈ walk (σ.nexts l) (σ.heads l) m,
              Function.update (σ.nexts l) i (σ.heads l) x = σ.nexts l x := by
            intro x hx
            have hxc : x ∈ chainAt σ l := by
              rw [chainAt, hm]
              have hdl := walk_dropLast (σ.nexts l) m (σ.heads l)
              rw [← hdl] at hx
              exact List.dropLast_subset _ hx
            refine Function.update_noteq ?_ _ _
            intro h0
            subst h0
            exact hi hxc
          rw [walk_congr m (σ.heads l) hagree, chainAt, hm]
        have hgl2 : (i :: chainAt σ l).getLast? = some (σ.tails l) := by
          rw [show (i :: chainAt σ l) = [i] ++ chainAt σ l from rfl,
            List.getLast?_append_of_ne_nil [i] (by rw [hc2]; simp),
            htl (by omega)]
        split
        all_goals
          refine ⟨?_, ?_, ?_⟩
          · rw [chainAt]
            dsimp only
            simp only [upd2, Function.update_same]
            rw [hwalk, hIns]
          · dsimp only
            simp only [Function.update_same]
          · rw [chainAt]
            dsimp only
            simp only [upd2, Function.update_same]
            rw [hwalk]
            exact hgl2
    case neg =>
      by_cases htc : 0 ≤ σ.compare i (σ.tails l)
      case pos =>
        rw [if_neg hhd, if_pos htc]
        have hkt : ¬ key i < key (σ.tails l) := keyCompare_nonneg_iff.mp (by
          rw [← hcmp]; exact htc)
        have hgl : (chainAt σ l).getLast? = some (σ.tails l) := htl (by omega)
        have hall : ∀ x ∈ chainAt σ l, ¬ key i < key x := by
          intro x hx h0
          exact hkt (lt_of_lt_of_le h0 (pairwise_le_getLast hs hgl x hx))
        have hTW : (chainAt σ l).takeWhile (fun x => !decide (key i < key x)) =
            chainAt σ l :=
          List.takeWhile_eq_self_iff.mpr (by
            intro x hx
            simp [hall x hx])
        have hDWe : (chainAt σ l).dropWhile (fun x => !decide (key i < key x)) =
            [] :=
          List.dropWhile_eq_nil_iff.mpr (by
            intro x hx
            simp [hall x hx])
        have hIns : insIdx key i (chainAt σ l) = chainAt σ l ++ [i] := by
          rw [insIdx, hTW, hDWe]
        by_cases hins : l ≤ insLv
        case neg =>
          rw [if_neg hins, if_neg hins]
          exact ⟨by rw [hTW, hgl], rfl, fun _ => rfl, fun h0 => absurd h0 hins⟩
        case pos =>
          rw [if_pos hins, if_pos hins]
          refine ⟨by rw [hTW, hgl], rfl, fun h0 => absurd hins h0, fun _ => ?_⟩
          have hwalk : walk (Function.update (σ.nexts l) (σ.tails l) i)
              (σ.heads l) (σ.sizes l + 1) = chainAt σ l ++ [i] :=
            walk_snoc rfl hnd hgl
          split
          all_goals
            refine ⟨?_, ?_, ?_⟩
            · rw [chainAt]
              dsimp only
              simp only [upd2, Function.update_same]
              rw [hwalk, hIns]
            · dsimp only
              simp only [Function.update_same]
            · rw [chainAt]
              dsimp only
              simp only [upd2, Function.update_same]
              rw [hwalk]
              exact List.getLast?_concat _
      case neg =>
        rw [if_neg hhd, if_neg htc]
        have hkh : ¬ key i < key (σ.heads l) := fun h0 => hhd (by
          rw [hcmp]; exact keyCompare_lt_iff.mpr h0)
        have hkt : key i < key (σ.tails l) := not_not.mp (fun h0 => htc (by
          rw [hcmp]; exact keyCompare_nonneg_iff.mpr h0))
        have hgl : (chainAt σ l).getLast? = some (σ.tails l) := htl (by omega)
        have hcsplit :
            (chainAt σ l).takeWhile (fun x => !decide (key i < key x)) ++
            (chainAt σ l).dropWhile (fun x => !decide (key i < key x)) =
            chainAt σ l :=
          List.takeWhile_append_dropWhile
            (p := fun x => !decide (key i < key x)) (l := chainAt σ l)
        have htmem : σ.tails l ∈ chainAt σ l := mem_of_getLast? hgl
        have htTW : σ.tails l ∉
            (chainAt σ l).takeWhile (fun x => !decide (key i < key x)) := by
          intro h0
          have h1 := List.mem_takeWhile_imp h0
          simp at h1
          exact absurd hkt (not_lt.mpr h1)
        have htDW : σ.tails l ∈
            (chainAt σ l).dropWhile (fun x => !decide (key i < key x)) := by
          rcases List.mem_append.mp (by rw [hcsplit]; exact htmem) with h0 | h0
          · exact absurd h0 htTW
          · exact h0
        obtain ⟨b, B, hDW⟩ : ∃ b B,
            (chainAt σ l).dropWhile (fun x => !decide (key i < key x)) =
              b :: B := by
          cases hD : (chainAt σ l).dropWhile (fun x => !decide (key i < key x)) with
          | nil => rw [hD] at htDW; simp at htDW
          | cons b B => exact ⟨b, B, rfl⟩
        have hkb : key i < key b := by
          have := dropWhile_head_not hDW
          simpa using this
        have hpairTD := List.pairwise_append.mp (by rw [hcsplit]; exact hs)
        have hDWgood : ∀ x ∈
            (chainAt σ l).dropWhile (fun x => !decide (key i < key x)),
            key i < key x := by
          intro x hx
          rw [hDW] at hx
          rcases List.mem_cons.mp hx with rfl | hx2
          · exact hkb
          · have hp := hpairTD.2.1
            rw [hDW] at hp
            exact lt_of_lt_of_le hkb ((List.pairwise_cons.mp hp).1 x hx2)
        have hTWgood : ∀ x ∈
            (chainAt σ l).takeWhile (fun x => !decide (key i < key x)),
            ¬ key i < key x := by
          intro x hx
          have := List.mem_takeWhile_imp hx
          simpa using this
        have hTWcons :
            (chainAt σ l).takeWhile (fun x => !decide (key i < key x)) =
            σ.heads l :: (walk (σ.nexts l) (σ.nexts l (σ.heads l))
              (σ.sizes l - 1)).takeWhile (fun x => !decide (key i < key x)) := by
          rw [hc2]
          simp [List.takeWhile_cons, hkh]
        obtain ⟨q, hq⟩ : ∃ q,
            ((chainAt σ l).takeWhile
              (fun x => !decide (key i < key x))).getLast? = some q :=
          ⟨_, List.getLast?_eq_getLast_of_ne_nil (by rw [hTWcons]; simp)⟩
        have hlen :
            ((chainAt σ l).takeWhile (fun x => !decide (key i < key x))).length +
            (b :: B).length = σ.sizes l := by
          have h1 := congrArg List.length hcsplit
          rw [List.length_append] at h1
          rw [← hDW, ← hcl]
          exact h1
        have hscan : insScan σ.compare (σ.nexts l) i (σ.sizes l)
            (match pt with
             | some p => ((none : Option Nat), p)
             | none => (some (σ.heads l), σ.nexts l (σ.heads l))).1
            (match pt with
             | some p => ((none : Option Nat), p)
             | none => (some (σ.heads l), σ.nexts l (σ.heads l))).2 =
            some (some q, b) := by
          rw [hcmp]
          rcases hpt with rfl | ⟨p, rfl, hpc, hpk⟩
          · dsimp only
            have hrest : walk (σ.nexts l) (σ.nexts l (σ.heads l))
                (σ.sizes l - 1) =
                (walk (σ.nexts l) (σ.nexts l (σ.heads l))
                  (σ.sizes l - 1)).takeWhile
                  (fun x => !decide (key i < key x)) ++ b :: B := by
              rw [← hDW]
              conv_rhs =>
                rw [show (chainAt σ l).dropWhile
                    (fun x => !decide (key i < key x)) =
                    (walk (σ.nexts l) (σ.nexts l (σ.heads l))
                      (σ.sizes l - 1)).dropWhile
                      (fun x => !decide (key i < key x)) from by
                  rw [hc2]
                  simp [List.dropWhile_cons, hkh]]
              exact (List.takeWhile_append_dropWhile
                (p := fun x => !decide (key i < key x)) (l := _)).symm
            have hres := @insScan_spec K _ key (σ.nexts l) i b
              ((walk (σ.nexts l) (σ.nexts l (σ.heads l))
                (σ.sizes l - 1)).takeWhile (fun x => !decide (key i < key x)))
              _ (some (σ.heads l)) _ _ (σ.sizes l)
              hrest
              (fun x hx => hTWgood x (by rw [hTWcons]; exact List.mem_cons_of_mem _ hx))
              hkb
              (by
                have h1 := congrArg List.length hTWcons
                simp only [List.length_cons] at h1
                simp only [List.length_cons] at hlen
                omega)
            rw [hres, lastD_cons_getLast?, ← hTWcons, hq]
          · dsimp only
            have hpTW : p ∈ (chainAt σ l).takeWhile
                (fun x => !decide (key i < key x)) := by
              rcases List.mem_append.mp (by rw [hcsplit]; exact hpc) with h0 | h0
              · exact h0
              · exact absurd (hDWgood p h0) hpk
            obtain ⟨TP, TS, hTPS⟩ := List.append_of_mem hpTW
            have hcc : chainAt σ l = TP ++ p :: (TS ++ b :: B) := by
              rw [← hcsplit, hTPS, hDW, List.append_assoc]
              rfl
            have hsuf : walk (σ.nexts l) p ((TS ++ b :: B).length + 1) =
                p :: (TS ++ b :: B) :=
              walk_suffix (A := TP) (by rw [← hcc]; rfl)
            have hres := @insScan_spec K _ key (σ.nexts l) i b (p :: TS)
              _ (none : Option Nat) _ _ (σ.sizes l)
              (show walk (σ.nexts l) p ((TS ++ b :: B).length + 1) =
                  (p :: TS) ++ b :: B from by
                rw [hsuf, List.cons_append])
              (by
                intro x hx
                rcases List.mem_cons.mp hx with rfl | hx2
                · exact hpk
                · exact hTWgood x (by
                    rw [hTPS]
                    exact List.mem_append_right TP (List.mem_cons_of_mem p hx2)))
              hkb
              (by
                have h1 := congrArg List.length hcc
                rw [hcl] at h1
                simp only [List.length_append, List.length_cons] at h1
                simp only [List.length_cons]
                omega)
            rw [hres, lastD_cons, lastD_cons_getLast?]
            rw [hTPS, List.getLast?_append_cons] at hq
            rw [hq]
        rw [hscan]
        dsimp only
        by_cases hins : l ≤ insLv
        case neg =>
          rw [if_neg hins, if_neg hins]
          exact ⟨hq.symm, rfl, fun _ => rfl, fun h0 => absurd h0 hins⟩
        case pos =>
          rw [if_pos hins, if_pos hins]
          refine ⟨hq.symm, rfl, fun h0 => absurd hins h0, fun _ => ?_⟩
          have hic := interior_chain (f := σ.nexts l) (h := σ.heads l)
            (n := σ.sizes l) rfl rfl hDW hq hnd hi
          split
          all_goals
            refine ⟨?_, ?_, ?_⟩
            · rw [chainAt]
              dsimp only
              simp only [upd2, Function.update_same]
              exact hic.1
            · dsimp only
              simp only [Function.update_same]
            · rw [chainAt]
              dsimp only
              simp only [upd2, Function.update_same]
              rw [hic.1, hic.2]
              exact hgl

end FixedSkipList

namespace FixedSkipList

set_option maxHeartbeats 1600000 in
theorem insertLoop_spec {K : Type} [LinearOrder K] {key : Nat → K}
    {i insLv : Nat} :
    ∀ (l : Nat) (σ : FixedSkipList) (pt : Option Nat) (fl : Bool),
      σ.compare = keyCompare key →
      (∀ l2, l2 ≤ l →
        (chainAt σ l2).Pairwise (fun a b => key a ≤ key b) ∧
        (chainAt σ l2).Nodup ∧
        (σ.sizes l2 ≠ 0 → (chainAt σ l2).getLast? = some (σ.tails l2)) ∧
        i ∉ chainAt σ l2) →
      (∀ l2, l2 + 1 ≤ l → List.Sublist (chainAt σ (l2 + 1)) (chainAt σ l2)) →
      (pt = none ∨ ∃ p, pt = some p ∧ p ∈ chainAt σ l ∧ ¬ key i < key p) →
      (insertLoop i insLv l σ pt fl).2 = fl ∧
      ((insertLoop i insLv l σ pt fl).1.currentLevel = σ.currentLevel ∧
       (insertLoop i insLv l σ pt fl).1.capacity = σ.capacity ∧
       (insertLoop i insLv l σ pt fl).1.maxLevel = σ.maxLevel ∧
       (insertLoop i insLv l σ pt fl).1.compare = σ.compare) ∧
      (∀ l2, l2 ≤ l →
        chainAt (insertLoop i insLv l σ pt fl).1 l2 =
          (if l2 ≤ insLv then insIdx key i (chainAt σ l2) else chainAt σ l2) ∧
        (insertLoop i insLv l σ pt fl).1.sizes l2 =
          (if l2 ≤ insLv then σ.sizes l2 + 1 else σ.sizes l2) ∧
        ((insertLoop i insLv l σ pt fl).1.sizes l2 ≠ 0 →
          (chainAt (insertLoop i insLv l σ pt fl).1 l2).getLast? =
            some ((insertLoop i insLv l σ pt fl).1.tails l2))) ∧
      (∀ l2, l < l2 →
        (insertLoop i insLv l σ pt fl).1.nexts l2 = σ.nexts l2 ∧
        (insertLoop i insLv l σ pt fl).1.heads l2 = σ.heads l2 ∧
        (insertLoop i insLv l σ pt fl).1.tails l2 = σ.tails l2 ∧
        (insertLoop i insLv l σ pt fl).1.sizes l2 = σ.sizes l2) := by
  intro l
  induction l with
  | zero =>
    intro σ pt fl hcmp H Hsub hpt
    obtain ⟨h1, h2, h3, h4⟩ := H 0 le_rfl
    have hstep := @insertStep_main K _ key σ i insLv 0 pt hcmp h1 h2 h3 h4 hpt
    have hframe := insertStep_frame σ i insLv 0 pt
    show ((insertStep σ i insLv 0 pt).1, fl || (insertStep σ i insLv 0 pt).2.2).2 = fl ∧ _
    refine ⟨by rw [hstep.2.1]; simp, ?_, ?_, ?_⟩
    · exact hframe.1
    · intro l2 hl2
      interval_cases l2
      have hIL : 0 ≤ insLv := Nat.zero_le insLv
      have hmain := hstep.2.2.2 hIL
      rw [if_pos hIL, if_pos hIL]
      exact ⟨hmain.1, hmain.2.1, fun _ => hmain.2.2⟩
    · intro l2 hl2
      exact hframe.2 l2 (by omega)
  | succ l ih =>
    intro σ pt fl hcmp H Hsub hpt
    obtain ⟨h1, h2, h3, h4⟩ := H (l + 1) le_rfl
    have hstep := @insertStep_main K _ key σ i insLv (l + 1) pt hcmp h1 h2 h3 h4 hpt
    have hframe := insertStep_frame σ i insLv (l + 1) pt
    have hchEq : ∀ l2, l2 ≠ l + 1 →
        chainAt (insertStep σ i insLv (l + 1) pt).1 l2 = chainAt σ l2 := by
      intro l2 hne
      obtain ⟨e1, e2, e3, e4⟩ := hframe.2 l2 hne
      exact chainAt_ext e1 e2 e4
    have hcmp2 : (insertStep σ i insLv (l + 1) pt).1.compare = keyCompare key := by
      rw [hframe.1.2.2.2, hcmp]
    have H2 : ∀ l2, l2 ≤ l →
        (chainAt (insertStep σ i insLv (l + 1) pt).1 l2).Pairwise
          (fun a b => key a ≤ key b) ∧
        (chainAt (insertStep σ i insLv (l + 1) pt).1 l2).Nodup ∧
        ((insertStep σ i insLv (l + 1) pt).1.sizes l2 ≠ 0 →
          (chainAt (insertStep σ i insLv (l + 1) pt).1 l2).getLast? =
            some ((insertStep σ i insLv (l + 1) pt).1.tails l2)) ∧
        i ∉ chainAt (insertStep σ i insLv (l + 1) pt).1 l2 := by
      intro l2 hl2
      obtain ⟨g1, g2, g3, g4⟩ := H l2 (by omega)
      obtain ⟨e1, e2, e3, e4⟩ := hframe.2 l2 (by omega)
      rw [hchEq l2 (by omega), e3, e4]
      exact ⟨g1, g2, g3, g4⟩
    have Hsub2 : ∀ l2, l2 + 1 ≤ l →
        List.Sublist (chainAt (insertStep σ i insLv (l + 1) pt).1 (l2 + 1))
          (chainAt (insertStep σ i insLv (l + 1) pt).1 l2) := by
      intro l2 hl2
      rw [hchEq (l2 + 1) (by omega), hchEq l2 (by omega)]
      exact Hsub l2 (by omega)
    have hpt2 : (insertStep σ i insLv (l + 1) pt).2.1 = none ∨
        ∃ p, (insertStep σ i insLv (l + 1) pt).2.1 = some p ∧
          p ∈ chainAt (insertStep σ i insLv (l + 1) pt).1 l ∧
          ¬ key i < key p := by
      rw [hstep.1]
      cases hv : ((chainAt σ (l + 1)).takeWhile
          (fun x => !decide (key i < key x))).getLast? with
      | none => exact Or.inl rfl
      | some p =>
        refine Or.inr ⟨p, rfl, ?_, ?_⟩
        · rw [hchEq l (by omega)]
          have hpTW := mem_of_getLast? hv
          have hpc : p ∈ chainAt σ (l + 1) :=
            List.takeWhile_subset _ hpTW
          exact (Hsub l (by omega)).subset hpc
        · have hpTW := mem_of_getLast? hv
          have := List.mem_takeWhile_imp hpTW
          simpa using this
    have hrec := ih (insertStep σ i insLv (l + 1) pt).1
      (insertStep σ i insLv (l + 1) pt).2.1
      (fl || (insertStep σ i insLv (l + 1) pt).2.2) hcmp2 H2 Hsub2 hpt2
    have hunf : insertLoop i insLv (l + 1) σ pt fl =
        insertLoop i insLv l (insertStep σ i insLv (l + 1) pt).1
          (insertStep σ i insLv (l + 1) pt).2.1
          (fl || (insertStep σ i insLv (l + 1) pt).2.2) := rfl
    rw [hunf]
    refine ⟨by rw [hrec.1, hstep.2.1]; simp, ?_, ?_, ?_⟩
    · obtain ⟨s1, s2, s3, s4⟩ := hrec.2.1
      exact ⟨by rw [s1, hframe.1.1], by rw [s2, hframe.1.2.1],
        by rw [s3, hframe.1.2.2.1], by rw [s4, hframe.1.2.2.2]⟩
    · intro l2 hl2
      rcases Nat.lt_or_ge l2 (l + 1) with hc | hc
      · obtain ⟨r1, r2, r3⟩ := hrec.2.2.1 l2 (by omega)
        obtain ⟨e1, e2, e3, e4⟩ := hframe.2 l2 (by omega)
        refine ⟨?_, ?_, r3⟩
        · rw [r1, hchEq l2 (by omega)]
        · rw [r2, e4]
      · have hl2e : l2 = l + 1 := by omega
        subst hl2e
        obtain ⟨u1, u2, u3, u4⟩ := hrec.2.2.2 (l + 1) (by omega)
        have hchr : chainAt (insertLoop i insLv l
            (insertStep σ i insLv (l + 1) pt).1
            (insertStep σ i insLv (l + 1) pt).2.1
            (fl || (insertStep σ i insLv (l + 1) pt).2.2)).1 (l + 1) =
            chainAt (insertStep σ i insLv (l + 1) pt).1 (l + 1) :=
          chainAt_ext u1 u2 u4
        by_cases hIL : l + 1 ≤ insLv
        · have hmain := hstep.2.2.2 hIL
          refine ⟨?_, ?_, fun hz => ?_⟩
          · rw [hchr, hmain.1, if_pos hIL]
          · rw [u4, hmain.2.1, if_pos hIL]
          · rw [hchr, u3]
            exact hmain.2.2
        · have hmain := hstep.2.2.1 hIL
          refine ⟨?_, ?_, fun hz => ?_⟩
          · rw [hchr, hmain, if_neg hIL]
          · rw [u4, hmain, if_neg hIL]
          · rw [u4, hmain] at hz
            rw [hchr, u3, hmain]
            exact h3 hz
    · intro l2 hl2
      obtain ⟨u1, u2, u3, u4⟩ := hrec.2.2.2 l2 (by omega)
      obtain ⟨e1, e2, e3, e4⟩ := hframe.2 l2 (by omega)
      exact ⟨by rw [u1, e1], by rw [u2, e2], by rw [u3, e3], by rw [u4, e4]⟩

end FixedSkipList

namespace FixedSkipList

theorem pair_sublist_split {p q : Nat} :
    ∀ {c : List Nat}, List.Sublist [p, q] c → ∃ A B, c = A ++ p :: B ∧ q ∈ B := by
  intro c h
  induction c with
  | nil => simp at h
  | cons a c ih =>
    cases h with
    | cons _ h2 =>
      obtain ⟨A, B, h3, h4⟩ := ih h2
      exact ⟨a :: A, B, by rw [h3]; rfl, h4⟩
    | cons₂ _ h2 =>
      exact ⟨[], c, rfl, h2.subset (List.mem_cons_self q [])⟩

theorem nodup_split_notmem {X Y : List Nat} {i : Nat}
    (hnd : (X ++ i :: Y).Nodup) : i ∉ X ∧ i ∉ Y := by
  rw [List.nodup_append] at hnd
  obtain ⟨h1, h2, h3⟩ := hnd
  rw [List.nodup_cons] at h2
  exact ⟨fun hX => h3 hX (List.mem_cons_self i Y), h2.1⟩

theorem notmem_prefix_of_getLast? {A X : List Nat} {t : Nat}
    (hnd : (A ++ X).Nodup) (hx : X ≠ []) (hl : (A ++ X).getLast? = some t) :
    t ∉ A := by
  rw [List.getLast?_append_of_ne_nil _ hx] at hl
  have htX : t ∈ X := mem_of_getLast? hl
  have hdisj := (List.nodup_append.mp hnd).2.2
  exact fun hA => hdisj hA htX

theorem erase_append_cons_self {A B : List Nat} {i : Nat} (h : i ∉ A) :
    (A ++ i :: B).erase i = A ++ B := by
  rw [List.erase_append_right _ h, List.erase_cons_head]

theorem pair_sub_mid (A B : List Nat) (q i : Nat) :
    List.Sublist [q, i] (A ++ q :: i :: B) := by
  have h1 : List.Sublist [q, i] (q :: i :: B) :=
    List.Sublist.cons₂ q (List.Sublist.cons₂ i (List.nil_sublist B))
  exact h1.trans (List.sublist_append_right A (q :: i :: B))

theorem removeStep_notfound_scan {σ : FixedSkipList} {i l : Nat} {pt : Option Nat}
    (hnd : (chainAt σ l).Nodup)
    (htl : σ.sizes l ≠ 0 → (chainAt σ l).getLast? = some (σ.tails l))
    (hpt : pt = none ∨ ∃ p, pt = some p ∧ p ∈ chainAt σ l)
    (hni : i ∉ chainAt σ l) :
    remScan (σ.nexts l) i (σ.tails l) (σ.sizes l) none (pt.getD (σ.heads l)) =
      none := by
  by_cases hz : σ.sizes l = 0
  · rw [hz]; rfl
  · rcases hpt with rfl | ⟨p, rfl, hp⟩
    · exact remScan_notfound (chainAt σ l) (σ.sizes l) rfl hni (htl hz) hnd
        (le_of_eq (by rw [chainAt, walk_length]))
    · obtain ⟨C, D, hCD⟩ := List.append_of_mem hp
      have hw0 : walk (σ.nexts l) (σ.heads l) (σ.sizes l) = C ++ p :: D := hCD
      have hw : walk (σ.nexts l) p (D.length + 1) = p :: D := walk_suffix hw0
      have hsubset : ∀ x ∈ p :: D, x ∈ chainAt σ l := by
        intro x hx
        rw [hCD]
        exact List.mem_append_right C hx
      have hni2 : i ∉ p :: D := fun h0 => hni (hsubset i h0)
      have hgl : (p :: D).getLast? = some (σ.tails l) := by
        have h1 := htl hz
        rw [hCD, List.getLast?_append_of_ne_nil _ (List.cons_ne_nil p D)] at h1
        exact h1
      have hnd2 : (p :: D).Nodup := by
        rw [hCD, List.nodup_append] at hnd
        exact hnd.2.1
      have hlen : σ.sizes l = C.length + D.length + 1 := by
        have h := congrArg List.length hCD
        rw [chainAt, walk_length] at h
        simp [List.length_append] at h
        omega
      rw [Option.getD_some]
      exact remScan_notfound (p :: D) (σ.sizes l) hw hni2 hgl hnd2 (by simp; omega)

theorem removeStep_found_scan {σ : FixedSkipList} {i l : Nat} {pt : Option Nat}
    (hnd : (chainAt σ l).Nodup)
    (htl : σ.sizes l ≠ 0 → (chainAt σ l).getLast? = some (σ.tails l))
    (hpt : pt = none ∨ ∃ p, pt = some p ∧ List.Sublist [p, i] (chainAt σ l))
    (hi : i ∈ chainAt σ l) :
    ∃ A B, chainAt σ l = A ++ i :: B ∧
      remScan (σ.nexts l) i (σ.tails l) (σ.sizes l) none (pt.getD (σ.heads l)) =
        some A.getLast? := by
  have hz : σ.sizes l ≠ 0 := by
    intro h0
    rw [chainAt, h0] at hi
    simp [walk] at hi
  have htail := htl hz
  rcases hpt with rfl | ⟨p, rfl, hsub⟩
  · obtain ⟨A, B, hAB⟩ := List.append_of_mem hi
    refine ⟨A, B, hAB, ?_⟩
    rw [Option.getD_none]
    have hnm := nodup_split_notmem (hAB ▸ hnd)
    have htA : σ.tails l ∉ A :=
      notmem_prefix_of_getLast? (hAB ▸ hnd) (List.cons_ne_nil i B) (hAB ▸ htail)
    have hlen : σ.sizes l = A.length + B.length + 1 := by
      have h := congrArg List.length hAB
      rw [chainAt, walk_length] at h
      simp [List.length_append] at h
      omega
    have hw : walk (σ.nexts l) (σ.heads l) (σ.sizes l) = A ++ i :: B := hAB
    have hfound := @remScan_found (σ.nexts l) i (σ.tails l) A B none
      (σ.heads l) (σ.sizes l) (σ.sizes l) hw hnm.1 htA (by omega)
    by_cases hAn : A = []
    · subst hAn
      exact hfound
    · rw [hfound, lastD_getLast? hAn]
  · obtain ⟨C, D, hCD, hiD⟩ := pair_sublist_split hsub
    obtain ⟨M, B2, hMB⟩ := List.append_of_mem hiD
    have hchain2 : chainAt σ l = (C ++ p :: M) ++ i :: B2 := by
      rw [hCD, hMB]
      simp
    refine ⟨C ++ p :: M, B2, hchain2, ?_⟩
    have hw0 : walk (σ.nexts l) (σ.heads l) (σ.sizes l) = C ++ p :: D := hCD
    have hw : walk (σ.nexts l) p (D.length + 1) = p :: D := walk_suffix hw0
    rw [hMB] at hw
    have hw2 : walk (σ.nexts l) p ((M ++ i :: B2).length + 1) =
        (p :: M) ++ i :: B2 := by rw [hw, List.cons_append]
    have hnd2 := hchain2 ▸ hnd
    have hnm := nodup_split_notmem hnd2
    have hiPM : i ∉ p :: M := fun h0 => hnm.1 (List.mem_append_right C h0)
    have htA : σ.tails l ∉ C ++ p :: M :=
      notmem_prefix_of_getLast? hnd2 (List.cons_ne_nil i B2) (hchain2 ▸ htail)
    have htPM : σ.tails l ∉ p :: M := fun h0 => htA (List.mem_append_right C h0)
    have hlen : σ.sizes l = C.length + M.length + B2.length + 2 := by
      have h := congrArg List.length hchain2
      rw [chainAt, walk_length] at h
      simp [List.length_append] at h
      omega
    have hfound := @remScan_found (σ.nexts l) i (σ.tails l) (p :: M) B2 none
      p ((M ++ i :: B2).length + 1) (σ.sizes l) hw2 hiPM htPM (by simp; omega)
    rw [Option.getD_some, hfound, lastD_getLast? (List.cons_ne_nil p M),
      List.getLast?_append_of_ne_nil C (List.cons_ne_nil p M)]

end FixedSkipList

namespace FixedSkipList

set_option maxHeartbeats 1600000 in
theorem removeStep_main {σ : FixedSkipList} {i l : Nat} {pt : Option Nat}
    (hnd : (chainAt σ l).Nodup)
    (htl : σ.sizes l ≠ 0 → (chainAt σ l).getLast? = some (σ.tails l))
    (hpt : pt = none ∨ ∃ p, pt = some p ∧ p ∈ chainAt σ l ∧
      (i ∈ chainAt σ l → List.Sublist [p, i] (chainAt σ l))) :
    (i ∉ chainAt σ l → removeStep σ i l pt = (σ, pt)) ∧
    (i ∈ chainAt σ l →
      chainAt (removeStep σ i l pt).1 l = (chainAt σ l).erase i ∧
      (removeStep σ i l pt).1.sizes l = σ.sizes l - 1 ∧
      ((removeStep σ i l pt).1.sizes l ≠ 0 →
        (chainAt (removeStep σ i l pt).1 l).getLast? =
          some ((removeStep σ i l pt).1.tails l)) ∧
      (removeStep σ i l pt).1.currentLevel =
        (if σ.sizes l = 1 then σ.currentLevel - 1 else σ.currentLevel) ∧
      ((removeStep σ i l pt).2 = none ∨
        ∃ q, (removeStep σ i l pt).2 = some q ∧
          List.Sublist [q, i] (chainAt σ l))) := by
  constructor
  · intro hni
    have hpt2 : pt = none ∨ ∃ p, pt = some p ∧ p ∈ chainAt σ l := by
      rcases hpt with h | ⟨p, h1, h2, h3⟩
      · exact Or.inl h
      · exact Or.inr ⟨p, h1, h2⟩
    have hscan := removeStep_notfound_scan hnd htl hpt2 hni
    unfold removeStep
    dsimp only
    rw [hscan]
  · intro hi
    have hpt2 : pt = none ∨
        ∃ p, pt = some p ∧ List.Sublist [p, i] (chainAt σ l) := by
      rcases hpt with h | ⟨p, h1, h2, h3⟩
      · exact Or.inl h
      · exact Or.inr ⟨p, h1, h3 hi⟩
    obtain ⟨A, B, hchain, hscan⟩ := removeStep_found_scan hnd htl hpt2 hi
    have hz : σ.sizes l ≠ 0 := by
      intro h0
      rw [chainAt, h0] at hi
      simp [walk] at hi
    have htail := htl hz
    have hnm := nodup_split_notmem (hchain ▸ hnd)
    have hlen : σ.sizes l = A.length + B.length + 1 := by
      have h := congrArg List.length hchain
      rw [chainAt, walk_length] at h
      simp [List.length_append] at h
      omega
    rcases A.eq_nil_or_concat with rfl | ⟨A2, q, rfl⟩
    · have hscan2 : remScan (σ.nexts l) i (σ.tails l) (σ.sizes l) none
          (pt.getD (σ.heads l)) = some none := hscan
      simp only [List.nil_append] at hchain
      have hwc : walk (σ.nexts l) (σ.heads l) (σ.sizes l) = i :: B := hchain
      obtain ⟨hhead, hsz, hwB⟩ := walk_eq_cons hwc
      cases B with
      | nil =>
        have hsz1 : σ.sizes l = 1 := by simp at hsz; omega
        have htails : σ.tails l = i := by
          rw [hchain] at htail
          simp at htail
          omega
        unfold removeStep
        dsimp only
        rw [hscan2]
        dsimp only
        rw [if_pos hhead.symm, if_pos htails.symm, if_pos hsz1]
        refine ⟨?_, ?_, ?_, ?_, Or.inl rfl⟩
        · rw [chainAt]
          dsimp only
          simp only [Function.update_same]
          rw [hchain, hsz1]
          simp [walk]
        · dsimp only
          simp only [Function.update_same]
        · intro hz2
          exfalso
          apply hz2
          dsimp only
          simp only [Function.update_same]
          omega
        · rw [if_pos hsz1]
      | cons b B2 =>
        have hsz1 : ¬ σ.sizes l = 1 := by simp at hsz; omega
        have hBtail : (b :: B2).getLast? = some (σ.tails l) := by
          rw [hchain, List.getLast?_cons_cons] at htail
          exact htail
        have hneq : ¬ i = σ.tails l := by
          intro h0
          have hm := mem_of_getLast? hBtail
          rw [← h0] at hm
          exact hnm.2 hm
        unfold removeStep
        dsimp only
        rw [hscan2]
        dsimp only
        rw [if_pos hhead.symm, if_neg hneq, if_neg hsz1]
        refine ⟨?_, ?_, ?_, ?_, Or.inl rfl⟩
        · rw [chainAt]
          dsimp only
          simp only [Function.update_same]
          rw [hchain, List.erase_cons_head]
          have hl2 : σ.sizes l - 1 = (b :: B2).length := by
            simp at hsz ⊢
            omega
          rw [hl2]
          exact hwB
        · dsimp only
          simp only [Function.update_same]
        · intro hz2
          rw [chainAt]
          dsimp only
          simp only [Function.update_same]
          have hl2 : σ.sizes l - 1 = (b :: B2).length := by
            simp at hsz ⊢
            omega
          rw [hl2, hwB]
          exact hBtail
        · rw [if_neg hsz1]
    · simp only [List.concat_eq_append] at hchain hscan hnm hlen
      have hscan2 : remScan (σ.nexts l) i (σ.tails l) (σ.sizes l) none
          (pt.getD (σ.heads l)) = some (some q) := by
        rw [hscan, List.getLast?_concat]
      have hch2 : chainAt σ l = A2 ++ q :: i :: B := by
        rw [hchain]
        simp
      have hwA : walk (σ.nexts l) (σ.heads l) (σ.sizes l) =
          A2 ++ q :: i :: B := hch2
      have hndA : (A2 ++ q :: i :: B).Nodup := hch2 ▸ hnd
      obtain ⟨a, T, haT⟩ := List.exists_cons_of_ne_nil
        (show A2 ++ [q] ≠ [] by simp)
      have hch3 : chainAt σ l = a :: (T ++ i :: B) := by
        rw [hchain, haT]
        simp
      have hwc3 : walk (σ.nexts l) (σ.heads l) (σ.sizes l) =
          a :: (T ++ i :: B) := hch3
      have hhead : σ.heads l = a := (walk_eq_cons hwc3).1
      have hihead : ¬ i = σ.heads l := by
        intro h0
        apply hnm.1
        rw [haT, h0, hhead]
        exact List.mem_cons_self a T
      have hsz1 : ¬ σ.sizes l = 1 := by
        simp only [List.length_append, List.length_cons, List.length_nil] at hlen
        omega
      cases B with
      | nil =>
        have htails : σ.tails l = i := by
          rw [hchain, List.getLast?_concat] at htail
          injection htail with h
          exact h.symm
        have hwA2 : walk (σ.nexts l) (σ.heads l) (σ.sizes l) =
            A2 ++ [q, i] := hwA
        have hwalkL : walk (Function.update (σ.nexts l) q (σ.nexts l i))
            (σ.heads l) (σ.sizes l - 1) = A2 ++ [q] :=
          walk_unsplice_last hwA2 hndA
        have herase : (chainAt σ l).erase i = A2 ++ [q] := by
          rw [hchain, erase_append_cons_self hnm.1, List.append_nil]
        unfold removeStep
        dsimp only
        rw [hscan2]
        dsimp only
        rw [if_neg hihead, if_pos htails.symm, if_neg hsz1]
        split
        all_goals exact ⟨
          by
            rw [chainAt]
            dsimp only
            simp only [upd2, Function.update_same, Option.getD_some]
            rw [hwalkL, herase],
          by
            dsimp only
            simp only [Function.update_same],
          fun hz2 => by
            rw [chainAt]
            dsimp only
            simp only [upd2, Function.update_same, Option.getD_some]
            rw [hwalkL, List.getLast?_concat],
          rfl,
          Or.inr ⟨q, rfl, by rw [hch2]; exact pair_sub_mid A2 [] q i⟩⟩
      | cons b B2 =>
        have hBtail : (b :: B2).getLast? = some (σ.tails l) := by
          rw [hch2, List.getLast?_append_of_ne_nil _ (List.cons_ne_nil q _),
            List.getLast?_cons_cons, List.getLast?_cons_cons] at htail
          exact htail
        have hneq : ¬ i = σ.tails l := by
          intro h0
          have hm := mem_of_getLast? hBtail
          rw [← h0] at hm
          exact hnm.2 hm
        have hwalkM : walk (Function.update (σ.nexts l) q (σ.nexts l i))
            (σ.heads l) (σ.sizes l - 1) = A2 ++ q :: b :: B2 :=
          walk_unsplice_mid hwA hndA
        have herase : (chainAt σ l).erase i = A2 ++ q :: b :: B2 := by
          rw [hchain, erase_append_cons_self hnm.1]
          simp
        have hglast : (A2 ++ q :: b :: B2).getLast? = some (σ.tails l) := by
          rw [List.getLast?_append_of_ne_nil _ (List.cons_ne_nil q _),
            List.getLast?_cons_cons]
          exact hBtail
        unfold removeStep
        dsimp only
        rw [hscan2]
        dsimp only
        rw [if_neg hihead, if_neg hneq, if_neg hsz1]
        split
        all_goals exact ⟨
          by
            rw [chainAt]
            dsimp only
            simp only [upd2, Function.update_same, Option.getD_some]
            rw [hwalkM, herase],
          by
            dsimp only
            simp only [Function.update_same],
          fun hz2 => by
            rw [chainAt]
            dsimp only
            simp only [upd2, Function.update_same, Option.getD_some]
            rw [hwalkM]
            exact hglast,
          rfl,
          Or.inr ⟨q, rfl, by rw [hch2]; exact pair_sub_mid A2 (b :: B2) q i⟩⟩

end FixedSkipList

namespace FixedSkipList

/-- The number of levels up to `l` whose chain is the singleton `[i]` (the
levels at which `remove(i)` decrements `currentLevel`). -/
def countSingle (σ : FixedSkipList) (i : Nat) : Nat → Nat
  | 0 => if i ∈ chainAt σ 0 ∧ σ.sizes 0 = 1 then 1 else 0
  | l + 1 => (if i ∈ chainAt σ (l + 1) ∧ σ.sizes (l + 1) = 1 then 1 else 0) +
      countSingle σ i l

theorem countSingle_congr {σ τ : FixedSkipList} {i : Nat} :
    ∀ (l : Nat),
      (∀ l2, l2 ≤ l → chainAt τ l2 = chainAt σ l2 ∧ τ.sizes l2 = σ.sizes l2) →
      countSingle τ i l = countSingle σ i l
  | 0, h => by
    obtain ⟨h1, h2⟩ := h 0 le_rfl
    simp only [countSingle, h1, h2]
  | l + 1, h => by
    obtain ⟨h1, h2⟩ := h (l + 1) le_rfl
    simp only [countSingle, h1, h2,
      countSingle_congr l (fun l2 hl2 => h l2 (by omega))]

set_option maxHeartbeats 1600000 in
theorem removeLoop_spec {i : Nat} :
    ∀ (l : Nat) (σ : FixedSkipList) (pt : Option Nat),
      (∀ l2, l2 ≤ l → (chainAt σ l2).Nodup ∧
        (σ.sizes l2 ≠ 0 → (chainAt σ l2).getLast? = some (σ.tails l2))) →
      (∀ l2, l2 + 1 ≤ l → List.Sublist (chainAt σ (l2 + 1)) (chainAt σ l2)) →
      (pt = none ∨ ∃ p, pt = some p ∧ List.Sublist [p, i] (chainAt σ l)) →
      ((removeLoop i l σ pt).capacity = σ.capacity ∧
       (removeLoop i l σ pt).maxLevel = σ.maxLevel ∧
       (removeLoop i l σ pt).compare = σ.compare) ∧
      (removeLoop i l σ pt).currentLevel =
        σ.currentLevel - (countSingle σ i l : Int) ∧
      (∀ l2, l2 ≤ l →
        chainAt (removeLoop i l σ pt) l2 = (chainAt σ l2).erase i ∧
        (removeLoop i l σ pt).sizes l2 =
          (if i ∈ chainAt σ l2 then σ.sizes l2 - 1 else σ.sizes l2) ∧
        ((removeLoop i l σ pt).sizes l2 ≠ 0 →
          (chainAt (removeLoop i l σ pt) l2).getLast? =
            some ((removeLoop i l σ pt).tails l2))) ∧
      (∀ l2, l < l2 →
        (removeLoop i l σ pt).nexts l2 = σ.nexts l2 ∧
        (removeLoop i l σ pt).heads l2 = σ.heads l2 ∧
        (removeLoop i l σ pt).tails l2 = σ.tails l2 ∧
        (removeLoop i l σ pt).sizes l2 = σ.sizes l2) := by
  intro l
  induction l with
  | zero =>
    intro σ pt H Hsub hpt
    obtain ⟨hnd, htl⟩ := H 0 le_rfl
    have hpt2 : pt = none ∨ ∃ p, pt = some p ∧ p ∈ chainAt σ 0 ∧
        (i ∈ chainAt σ 0 → List.Sublist [p, i] (chainAt σ 0)) := by
      rcases hpt with h | ⟨p, h1, h2⟩
      · exact Or.inl h
      · exact Or.inr ⟨p, h1, h2.subset (List.mem_cons_self p [i]), fun _ => h2⟩
    have hmain := removeStep_main hnd htl hpt2
    have hframe := removeStep_frame σ i 0 pt
    have hunf0 : removeLoop i 0 σ pt = (removeStep σ i 0 pt).1 := rfl
    rw [hunf0]
    by_cases hmem : i ∈ chainAt σ 0
    · obtain ⟨hc1, hc2, hc3, hc4, hc5⟩ := hmain.2 hmem
      refine ⟨hframe.1, ?_, ?_, ?_⟩
      · rw [hc4, countSingle]
        by_cases hs1 : σ.sizes 0 = 1
        · rw [if_pos hs1, if_pos ⟨hmem, hs1⟩]
          simp
        · rw [if_neg hs1, if_neg (fun h => hs1 h.2)]
          simp
      · intro l2 hl2
        interval_cases l2
        rw [if_pos hmem]
        exact ⟨hc1, hc2, hc3⟩
      · intro l2 hl2
        exact hframe.2 l2 (by omega)
    · have hN := hmain.1 hmem
      have hσ : (removeStep σ i 0 pt).1 = σ := by rw [hN]
      rw [hσ]
      refine ⟨⟨rfl, rfl, rfl⟩, ?_, ?_, ?_⟩
      · rw [countSingle, if_neg (fun h => hmem h.1)]
        simp
      · intro l2 hl2
        interval_cases l2
        rw [List.erase_of_not_mem hmem, if_neg hmem]
        exact ⟨rfl, rfl, htl⟩
      · intro l2 hl2
        exact ⟨rfl, rfl, rfl, rfl⟩
  | succ l ih =>
    intro σ pt H Hsub hpt
    obtain ⟨hnd, htl⟩ := H (l + 1) le_rfl
    have hpt2 : pt = none ∨ ∃ p, pt = some p ∧ p ∈ chainAt σ (l + 1) ∧
        (i ∈ chainAt σ (l + 1) → List.Sublist [p, i] (chainAt σ (l + 1))) := by
      rcases hpt with h | ⟨p, h1, h2⟩
      · exact Or.inl h
      · exact Or.inr ⟨p, h1, h2.subset (List.mem_cons_self p [i]), fun _ => h2⟩
    have hmain := removeStep_main hnd htl hpt2
    have hframe := removeStep_frame σ i (l + 1) pt
    have hchEq : ∀ l2, l2 ≠ l + 1 →
        chainAt (removeStep σ i (l + 1) pt).1 l2 = chainAt σ l2 := by
      intro l2 hne
      obtain ⟨e1, e2, e3, e4⟩ := hframe.2 l2 hne
      exact chainAt_ext e1 e2 e4
    have H2 : ∀ l2, l2 ≤ l →
        (chainAt (removeStep σ i (l + 1) pt).1 l2).Nodup ∧
        ((removeStep σ i (l + 1) pt).1.sizes l2 ≠ 0 →
          (chainAt (removeStep σ i (l + 1) pt).1 l2).getLast? =
            some ((removeStep σ i (l + 1) pt).1.tails l2)) := by
      intro l2 hl2
      obtain ⟨g1, g2⟩ := H l2 (by omega)
      obtain ⟨e1, e2, e3, e4⟩ := hframe.2 l2 (by omega)
      rw [hchEq l2 (by omega), e3, e4]
      exact ⟨g1, g2⟩
    have Hsub2 : ∀ l2, l2 + 1 ≤ l →
        List.Sublist (chainAt (removeStep σ i (l + 1) pt).1 (l2 + 1))
          (chainAt (removeStep σ i (l + 1) pt).1 l2) := by
      intro l2 hl2
      rw [hchEq (l2 + 1) (by omega), hchEq l2 (by omega)]
      exact Hsub l2 (by omega)
    have hunf : removeLoop i (l + 1) σ pt =
        removeLoop i l (removeStep σ i (l + 1) pt).1
          (removeStep σ i (l + 1) pt).2 := rfl
    by_cases hmem : i ∈ chainAt σ (l + 1)
    · obtain ⟨hc1, hc2, hc3, hc4, hc5⟩ := hmain.2 hmem
      have hpt3 : (removeStep σ i (l + 1) pt).2 = none ∨
          ∃ q, (removeStep σ i (l + 1) pt).2 = some q ∧
            List.Sublist [q, i] (chainAt (removeStep σ i (l + 1) pt).1 l) := by
        rcases hc5 with h | ⟨q, h1, h2⟩
        · exact Or.inl h
        · refine Or.inr ⟨q, h1, ?_⟩
          rw [hchEq l (by omega)]
          exact h2.trans (Hsub l le_rfl)
      have hrec := ih (removeStep σ i (l + 1) pt).1
        (removeStep σ i (l + 1) pt).2 H2 Hsub2 hpt3
      rw [hunf]
      obtain ⟨hs1, hs2, hs3, hs4⟩ := hrec
      refine ⟨?_, ?_, ?_, ?_⟩
      · exact ⟨by rw [hs1.1, hframe.1.1], by rw [hs1.2.1, hframe.1.2.1],
          by rw [hs1.2.2, hframe.1.2.2]⟩
      · rw [hs2, hc4]
        have hcnt : countSingle (removeStep σ i (l + 1) pt).1 i l =
            countSingle σ i l := by
          apply countSingle_congr
          intro l2 hl2
          obtain ⟨e1, e2, e3, e4⟩ := hframe.2 l2 (by omega)
          exact ⟨hchEq l2 (by omega), e4⟩
        rw [hcnt, countSingle]
        by_cases hq1 : σ.sizes (l + 1) = 1
        · rw [if_pos hq1, if_pos ⟨hmem, hq1⟩]
          push_cast
          ring
        · rw [if_neg hq1, if_neg (fun h => hq1 h.2)]
          push_cast
          ring
      · intro l2 hl2
        rcases Nat.lt_or_ge l2 (l + 1) with hc | hc
        · obtain ⟨r1, r2, r3⟩ := hs3 l2 (by omega)
          obtain ⟨e1, e2, e3, e4⟩ := hframe.2 l2 (by omega)
          refine ⟨?_, ?_, r3⟩
          · rw [r1, hchEq l2 (by omega)]
          · rw [r2, hchEq l2 (by omega), e4]
        · have hl2e : l2 = l + 1 := by omega
          subst hl2e
          obtain ⟨u1, u2, u3, u4⟩ := hs4 (l + 1) (by omega)
          have hchr : chainAt (removeLoop i l (removeStep σ i (l + 1) pt).1
              (removeStep σ i (l + 1) pt).2) (l + 1) =
              chainAt (removeStep σ i (l + 1) pt).1 (l + 1) :=
            chainAt_ext u1 u2 u4
          refine ⟨by rw [hchr, hc1], by rw [u4, hc2, if_pos hmem],
            fun hz => ?_⟩
          rw [hchr, u3]
          exact hc3 (by rw [u4] at hz; exact hz)
      · intro l2 hl2
        obtain ⟨u1, u2, u3, u4⟩ := hs4 l2 (by omega)
        obtain ⟨e1, e2, e3, e4⟩ := hframe.2 l2 (by omega)
        exact ⟨by rw [u1, e1], by rw [u2, e2], by rw [u3, e3], by rw [u4, e4]⟩
    · have hN := hmain.1 hmem
      have hσ : (removeStep σ i (l + 1) pt).1 = σ := by rw [hN]
      have hpt3 : (removeStep σ i (l + 1) pt).2 = none ∨
          ∃ q, (removeStep σ i (l + 1) pt).2 = some q ∧
            List.Sublist [q, i] (chainAt (removeStep σ i (l + 1) pt).1 l) := by
        have hptnone : pt = none := by
          rcases hpt with h | ⟨p, h1, h2⟩
          · exact h
          · exact absurd (h2.subset (by simp)) hmem
        rw [hN, hptnone]
        exact Or.inl rfl
      have hrec := ih (removeStep σ i (l + 1) pt).1
        (removeStep σ i (l + 1) pt).2 H2 Hsub2 hpt3
      rw [hunf, hσ]
      rw [hσ] at hrec
      obtain ⟨hs1, hs2, hs3, hs4⟩ := hrec
      refine ⟨hs1, ?_, ?_, ?_⟩
      · rw [hs2, countSingle, if_neg (fun h => hmem h.1)]
        push_cast
        ring
      · intro l2 hl2
        rcases Nat.lt_or_ge l2 (l + 1) with hc | hc
        · exact hs3 l2 (by omega)
        · have hl2e : l2 = l + 1 := by omega
          subst hl2e
          obtain ⟨u1, u2, u3, u4⟩ := hs4 (l + 1) (by omega)
          have hchr : chainAt (removeLoop i l σ
              (removeStep σ i (l + 1) pt).2) (l + 1) = chainAt σ (l + 1) :=
            chainAt_ext u1 u2 u4
          rw [hchr, u3, u4, List.erase_of_not_mem hmem, if_neg hmem]
          exact ⟨rfl, rfl, fun hz => htl hz⟩
      · intro l2 hl2
        exact hs4 l2 (by omega)

end FixedSkipList

namespace FixedSkipList

theorem chainAt_nil {σ : FixedSkipList} {l : Nat} (h : σ.sizes l = 0) :
    chainAt σ l = [] := by
  rw [chainAt, h]
  rfl

theorem chain_sub_le {σ : FixedSkipList}
    (hsub : ∀ l, List.Sublist (chainAt σ (l + 1)) (chainAt σ l)) :
    ∀ {a b : Nat}, a ≤ b → List.Sublist (chainAt σ b) (chainAt σ a) := by
  intro a b hab
  obtain ⟨d, rfl⟩ := Nat.exists_eq_add_of_le hab
  clear hab
  induction d with
  | zero => exact List.Sublist.refl _
  | succ d ih => exact List.Sublist.trans (hsub (a + d)) ih

theorem countSingle_le (σ : FixedSkipList) (i : Nat) :
    ∀ l, countSingle σ i l ≤ l + 1
  | 0 => by
    rw [countSingle]
    split <;> omega
  | l + 1 => by
    rw [countSingle]
    have h := countSingle_le σ i l
    split <;> omega

theorem erase_nil_cases {c : List Nat} {i : Nat} (h : c.erase i = []) :
    c = [] ∨ c = [i] := by
  cases c with
  | nil => exact Or.inl rfl
  | cons a c2 =>
    by_cases hai : a = i
    · subst hai
      rw [List.erase_cons_head] at h
      exact Or.inr (by rw [h])
    · rw [List.erase_cons_tail] at h
      · simp at h
      · simp [hai]

theorem sublist_single_cases {c : List Nat} {i : Nat}
    (h : List.Sublist c [i]) : c = [] ∨ c = [i] := by
  cases h with
  | cons _ h2 =>
    rw [List.sublist_nil] at h2
    exact Or.inl h2
  | cons₂ _ h2 =>
    rw [List.sublist_nil] at h2
    exact Or.inr (by rw [h2])

theorem count_forces_nil {σ : FixedSkipList} {i : Nat}
    (hsub : ∀ l, List.Sublist (chainAt σ (l + 1)) (chainAt σ l)) :
    ∀ l l2, l2 ≤ l → l < l2 + countSingle σ i l →
      (chainAt σ l2).erase i = [] := by
  intro l
  induction l with
  | zero =>
    intro l2 hl2 h
    interval_cases l2
    rw [countSingle] at h
    by_cases hc : i ∈ chainAt σ 0 ∧ σ.sizes 0 = 1
    · have hlen1 : (chainAt σ 0).length = 1 := by
        rw [chainAt, walk_length]
        exact hc.2
      obtain ⟨x, hx⟩ := List.length_eq_one.mp hlen1
      have hxi : x = i := by
        have h9 := hc.1
        rw [hx] at h9
        simp at h9
        omega
      rw [hx, hxi, List.erase_cons_head]
    · rw [if_neg hc] at h
      omega
  | succ l ih =>
    intro l2 hl2 h
    rw [countSingle] at h
    rcases Nat.lt_or_ge l2 (l + 1) with hc | hc
    · apply ih l2 (by omega)
      split at h <;> omega
    · have hl2e : l2 = l + 1 := by omega
      subst hl2e
      by_cases hd : i ∈ chainAt σ (l + 1) ∧ σ.sizes (l + 1) = 1
      · have hlen1 : (chainAt σ (l + 1)).length = 1 := by
          rw [chainAt, walk_length]
          exact hd.2
        obtain ⟨x, hx⟩ := List.length_eq_one.mp hlen1
        have hxi : x = i := by
          have h9 := hd.1
          rw [hx] at h9
          simp at h9
          omega
        rw [hx, hxi, List.erase_cons_head]
      · rw [if_neg hd] at h
        have h2 : l < l + countSingle σ i l := by omega
        have h3 := ih l le_rfl h2
        rcases erase_nil_cases h3 with h4 | h4
        · have h5 : List.Sublist (chainAt σ (l + 1)) [] := h4 ▸ hsub l
          rw [List.sublist_nil] at h5
          rw [h5]
          rfl
        · have h5 : List.Sublist (chainAt σ (l + 1)) [i] := h4 ▸ hsub l
          rcases sublist_single_cases h5 with h6 | h6
          · rw [h6]
            rfl
          · rw [h6, List.erase_cons_head]

end FixedSkipList

section Invariant

variable {K : Type} [LinearOrder K]

/-- The structural invariant maintained by every reachable state: per-level
chains are sorted and duplicate-free, `tails[l]` is the last chain node,
each level is a sublist of the one below, all nodes are in-range, and
`currentLevel` bounds the occupied levels from above while staying in
`[-1, maxLevel - 1]`. -/
structure SkipInv (key : Nat → K) (σ : FixedSkipList) : Prop where
  cmp : σ.compare = keyCompare key
  ml : 1 ≤ σ.maxLevel
  sorted : ∀ l, (FixedSkipList.chainAt σ l).Pairwise (fun a b => key a ≤ key b)
  nodup : ∀ l, (FixedSkipList.chainAt σ l).Nodup
  tails_ok : ∀ l, σ.sizes l ≠ 0 →
    (FixedSkipList.chainAt σ l).getLast? = some (σ.tails l)
  sub : ∀ l, List.Sublist (FixedSkipList.chainAt σ (l + 1))
    (FixedSkipList.chainAt σ l)
  cap : ∀ l, ∀ x ∈ FixedSkipList.chainAt σ l, x < σ.capacity
  lb : -1 ≤ σ.currentLevel
  ub : σ.currentLevel ≤ (σ.maxLevel : Int) - 1
  above : ∀ l : Nat, σ.currentLevel < (l : Int) → σ.sizes l = 0

theorem fresh_inv (key : Nat → K) (capacity maxLevel : Nat)
    (h : 1 ≤ maxLevel) :
    SkipInv key (FixedSkipList.fresh capacity maxLevel (keyCompare key)) := by
  have hch : ∀ l, FixedSkipList.chainAt
      (FixedSkipList.fresh capacity maxLevel (keyCompare key)) l = [] :=
    fun l => rfl
  refine ⟨rfl, h, ?_, ?_, ?_, ?_, ?_, ?_, ?_, ?_⟩
  · intro l
    rw [hch]
    exact List.Pairwise.nil
  · intro l
    rw [hch]
    exact List.nodup_nil
  · intro l hl
    exact absurd rfl hl
  · intro l
    rw [hch, hch]
  · intro l x hx
    rw [hch] at hx
    simp at hx
  · norm_num [FixedSkipList.fresh]
  · show (0 : Int) ≤ (maxLevel : Int) - 1
    have : (1 : Int) ≤ (maxLevel : Int) := by exact_mod_cast h
    omega
  · intro l _
    rfl

end Invariant

section InsertPreserve

variable {K : Type} [LinearOrder K]

open FixedSkipList in
set_option maxHeartbeats 1600000 in
theorem insert_spec {key : Nat → K} {σ : FixedSkipList} {i insLv : Nat}
    (hI : SkipInv key σ) (hcap : i < σ.capacity)
    (hni : i ∉ chainAt σ 0) (hml : insLv + 1 ≤ σ.maxLevel) :
    SkipInv key (σ.insert i insLv) ∧
    (∀ l, l ≤ insLv → chainAt (σ.insert i insLv) l =
      insIdx key i (chainAt σ l)) ∧
    (∀ l, insLv < l → chainAt (σ.insert i insLv) l = chainAt σ l) ∧
    (∀ l, l ≤ insLv → (σ.insert i insLv).sizes l = σ.sizes l + 1) ∧
    (∀ l, insLv < l → (σ.insert i insLv).sizes l = σ.sizes l) ∧
    (σ.insert i insLv).currentLevel = max (insLv : Int) σ.currentLevel ∧
    (σ.insert i insLv).capacity = σ.capacity ∧
    (σ.insert i insLv).maxLevel = σ.maxLevel ∧
    (σ.insert i insLv).compare = σ.compare := by
  set cl : Int := max (insLv : Int) σ.currentLevel with hcldef
  set τ : FixedSkipList := { σ with currentLevel := cl } with hτdef
  have hcl0 : (0 : Int) ≤ cl :=
    le_trans (Int.ofNat_nonneg insLv) (le_max_left _ _)
  have hLcl : (cl.toNat : Int) = cl := Int.toNat_of_nonneg hcl0
  have hLins : insLv ≤ cl.toNat := by
    have h1 : (insLv : Int) ≤ cl := le_max_left _ _
    omega
  have hcmpτ : τ.compare = keyCompare key := hI.cmp
  have hsubσ : ∀ l2 : Nat, List.Sublist (chainAt σ l2) (chainAt σ 0) :=
    fun l2 => chain_sub_le hI.sub (Nat.zero_le l2)
  have H : ∀ l2, l2 ≤ cl.toNat →
      (chainAt τ l2).Pairwise (fun a b => key a ≤ key b) ∧
      (chainAt τ l2).Nodup ∧
      (τ.sizes l2 ≠ 0 → (chainAt τ l2).getLast? = some (τ.tails l2)) ∧
      i ∉ chainAt τ l2 := by
    intro l2 _
    exact ⟨hI.sorted l2, hI.nodup l2, hI.tails_ok l2,
      fun hm => hni ((hsubσ l2).subset hm)⟩
  have Hsub2 : ∀ l2, l2 + 1 ≤ cl.toNat →
      List.Sublist (chainAt τ (l2 + 1)) (chainAt τ l2) :=
    fun l2 _ => hI.sub l2
  have hloop := @insertLoop_spec K _ key i insLv cl.toNat τ none false
    hcmpτ H Hsub2 (Or.inl rfl)
  have hins : σ.insert i insLv =
      (insertLoop i insLv cl.toNat τ none false).1 := rfl
  obtain ⟨hflag, hscal, hb, hc⟩ := hloop
  have hcl' : (σ.insert i insLv).currentLevel = cl := by
    rw [hins, hscal.1]
  have hcap' : (σ.insert i insLv).capacity = σ.capacity := by
    rw [hins, hscal.2.1]
  have hml' : (σ.insert i insLv).maxLevel = σ.maxLevel := by
    rw [hins, hscal.2.2.1]
  have hcmp' : (σ.insert i insLv).compare = σ.compare := by
    rw [hins, hscal.2.2.2]
  have hchain_le : ∀ l, l ≤ insLv →
      chainAt (σ.insert i insLv) l = insIdx key i (chainAt σ l) := by
    intro l hl
    have h1 := (hb l (by omega)).1
    rw [if_pos hl] at h1
    exact h1
  have hchain_gt : ∀ l, insLv < l →
      chainAt (σ.insert i insLv) l = chainAt σ l := by
    intro l hl
    rcases Nat.lt_or_ge cl.toNat l with hc2 | hc2
    · obtain ⟨e1, e2, e3, e4⟩ := hc l hc2
      exact chainAt_ext e1 e2 e4
    · have h1 := (hb l (by omega)).1
      rw [if_neg (by omega)] at h1
      exact h1
  have hsizes_le : ∀ l, l ≤ insLv →
      (σ.insert i insLv).sizes l = σ.sizes l + 1 := by
    intro l hl
    have h1 := (hb l (by omega)).2.1
    rw [if_pos hl] at h1
    exact h1
  have hsizes_gt : ∀ l, insLv < l →
      (σ.insert i insLv).sizes l = σ.sizes l := by
    intro l hl
    rcases Nat.lt_or_ge cl.toNat l with hc2 | hc2
    · exact (hc l hc2).2.2.2
    · have h1 := (hb l (by omega)).2.1
      rw [if_neg (by omega)] at h1
      exact h1
  have htails' : ∀ l, (σ.insert i insLv).sizes l ≠ 0 →
      (chainAt (σ.insert i insLv) l).getLast? =
        some ((σ.insert i insLv).tails l) := by
    intro l hl
    rcases Nat.lt_or_ge cl.toNat l with hc2 | hc2
    · obtain ⟨e1, e2, e3, e4⟩ := hc l hc2
      have e1h : (σ.insert i insLv).nexts l = σ.nexts l := e1
      have e2h : (σ.insert i insLv).heads l = σ.heads l := e2
      have e3h : (σ.insert i insLv).tails l = σ.tails l := e3
      have e4h : (σ.insert i insLv).sizes l = σ.sizes l := e4
      rw [chainAt_ext e1h e2h e4h, e3h]
      exact hI.tails_ok l (by rw [← e4h]; exact hl)
    · exact (hb l (by omega)).2.2 hl
  have hnotmem : ∀ l : Nat, i ∉ chainAt σ l :=
    fun l hm => hni ((hsubσ l).subset hm)
  refine ⟨⟨?_, ?_, ?_, ?_, htails', ?_, ?_, ?_, ?_, ?_⟩,
    hchain_le, hchain_gt, hsizes_le, hsizes_gt, hcl', hcap', hml', hcmp'⟩
  · rw [hcmp']
    exact hI.cmp
  · rw [hml']
    exact hI.ml
  · intro l
    by_cases hl : l ≤ insLv
    · rw [hchain_le l hl]
      exact insIdx_pairwise i (hI.sorted l)
    · rw [hchain_gt l (by omega)]
      exact hI.sorted l
  · intro l
    by_cases hl : l ≤ insLv
    · rw [hchain_le l hl]
      exact insIdx_nodup i (hnotmem l) (hI.nodup l)
    · rw [hchain_gt l (by omega)]
      exact hI.nodup l
  · intro l
    by_cases h1 : l + 1 ≤ insLv
    · rw [hchain_le (l + 1) h1, hchain_le l (by omega)]
      exact insIdx_sublist i (hI.sorted (l + 1)) (hI.sorted l) (hI.sub l)
    · by_cases h2 : l ≤ insLv
      · rw [hchain_gt (l + 1) (by omega), hchain_le l h2]
        exact (hI.sub l).trans (sublist_insIdx i _)
      · rw [hchain_gt (l + 1) (by omega), hchain_gt l (by omega)]
        exact hI.sub l
  · intro l x hx
    rw [hcap']
    by_cases hl : l ≤ insLv
    · rw [hchain_le l hl, mem_insIdx] at hx
      rcases hx with rfl | hx
      · exact hcap
      · exact hI.cap l x hx
    · rw [hchain_gt l (by omega)] at hx
      exact hI.cap l x hx
  · rw [hcl']
    exact le_trans hI.lb (le_max_right _ _)
  · rw [hcl', hml']
    have h1 : (insLv : Int) + 1 ≤ (σ.maxLevel : Int) := by exact_mod_cast hml
    have h2 := hI.ub
    rw [hcldef]
    omega
  · intro l hl
    rw [hcl'] at hl
    have h1 : (insLv : Int) < l := lt_of_le_of_lt (le_max_left _ _) hl
    have h2 : σ.currentLevel < (l : Int) := lt_of_le_of_lt (le_max_right _ _) hl
    rw [hsizes_gt l (by exact_mod_cast h1)]
    exact hI.above l h2

end InsertPreserve

section RemovePreserve

variable {K : Type} [LinearOrder K]

open FixedSkipList in
set_option maxHeartbeats 1600000 in
theorem remove_spec {key : Nat → K} {σ : FixedSkipList} {i : Nat}
    (hI : SkipInv key σ) (hmem : i ∈ chainAt σ 0) :
    SkipInv key (σ.remove i) ∧
    (∀ l, chainAt (σ.remove i) l = (chainAt σ l).erase i) ∧
    (∀ l, (σ.remove i).sizes l =
      (if i ∈ chainAt σ l then σ.sizes l - 1 else σ.sizes l)) ∧
    (σ.remove i).currentLevel = σ.currentLevel -
      (countSingle σ i σ.currentLevel.toNat : Int) ∧
    (σ.remove i).capacity = σ.capacity ∧
    (σ.remove i).maxLevel = σ.maxLevel ∧
    (σ.remove i).compare = σ.compare := by
  have hcl0 : (0 : Int) ≤ σ.currentLevel := by
    by_contra h
    have h0 := hI.above 0 (by omega)
    rw [chainAt_nil h0] at hmem
    simp at hmem
  have hrem : σ.remove i =
      removeLoop i σ.currentLevel.toNat σ none := by
    rw [remove, if_pos hcl0]
  have hLcl : (σ.currentLevel.toNat : Int) = σ.currentLevel :=
    Int.toNat_of_nonneg hcl0
  have H : ∀ l2, l2 ≤ σ.currentLevel.toNat → (chainAt σ l2).Nodup ∧
      (σ.sizes l2 ≠ 0 → (chainAt σ l2).getLast? = some (σ.tails l2)) :=
    fun l2 _ => ⟨hI.nodup l2, hI.tails_ok l2⟩
  have Hsub : ∀ l2, l2 + 1 ≤ σ.currentLevel.toNat →
      List.Sublist (chainAt σ (l2 + 1)) (chainAt σ l2) :=
    fun l2 _ => hI.sub l2
  have hloop := @removeLoop_spec i σ.currentLevel.toNat σ none H Hsub
    (Or.inl rfl)
  obtain ⟨hscal, hcl', hb, hc⟩ := hloop
  have habove : ∀ l, σ.currentLevel.toNat < l → σ.sizes l = 0 := by
    intro l hl
    exact hI.above l (by omega)
  have hchain : ∀ l, chainAt (σ.remove i) l = (chainAt σ l).erase i := by
    intro l
    rw [hrem]
    rcases Nat.lt_or_ge σ.currentLevel.toNat l with h2 | h2
    · obtain ⟨e1, e2, e3, e4⟩ := hc l h2
      rw [chainAt_ext e1 e2 e4, chainAt_nil (habove l h2)]
      rfl
    · exact (hb l h2).1
  have hsizes : ∀ l, (σ.remove i).sizes l =
      (if i ∈ chainAt σ l then σ.sizes l - 1 else σ.sizes l) := by
    intro l
    rw [hrem]
    rcases Nat.lt_or_ge σ.currentLevel.toNat l with h2 | h2
    · obtain ⟨e1, e2, e3, e4⟩ := hc l h2
      rw [e4, if_neg (by rw [chainAt_nil (habove l h2)]; simp)]
    · exact (hb l h2).2.1
  have htails : ∀ l, (σ.remove i).sizes l ≠ 0 →
      (chainAt (σ.remove i) l).getLast? = some ((σ.remove i).tails l) := by
    intro l hl
    rw [hrem] at hl ⊢
    rcases Nat.lt_or_ge σ.currentLevel.toNat l with h2 | h2
    · obtain ⟨e1, e2, e3, e4⟩ := hc l h2
      rw [chainAt_ext e1 e2 e4, e3]
      exact hI.tails_ok l (by rw [← e4]; exact hl)
    · exact (hb l h2).2.2 hl
  have hcl2 : (σ.remove i).currentLevel = σ.currentLevel -
      (countSingle σ i σ.currentLevel.toNat : Int) := by
    rw [hrem]
    exact hcl'
  have hcap2 : (σ.remove i).capacity = σ.capacity := by
    rw [hrem]
    exact hscal.1
  have hml2 : (σ.remove i).maxLevel = σ.maxLevel := by
    rw [hrem]
    exact hscal.2.1
  have hcmp2 : (σ.remove i).compare = σ.compare := by
    rw [hrem]
    exact hscal.2.2
  have hcount_le := countSingle_le σ i σ.currentLevel.toNat
  refine ⟨⟨?_, ?_, ?_, ?_, htails, ?_, ?_, ?_, ?_, ?_⟩,
    hchain, hsizes, hcl2, hcap2, hml2, hcmp2⟩
  · rw [hcmp2]
    exact hI.cmp
  · rw [hml2]
    exact hI.ml
  · intro l
    rw [hchain l]
    exact (hI.sorted l).sublist (List.erase_sublist i _)
  · intro l
    rw [hchain l]
    exact (hI.nodup l).sublist (List.erase_sublist i _)
  · intro l
    rw [hchain (l + 1), hchain l]
    exact List.Sublist.erase i (hI.sub l)
  · intro l x hx
    rw [hcap2]
    rw [hchain l] at hx
    exact hI.cap l x (List.mem_of_mem_erase hx)
  · rw [hcl2]
    omega
  · rw [hcl2, hml2]
    have h2 := hI.ub
    omega
  · intro l hl
    rw [hcl2] at hl
    rw [hsizes l]
    rcases Nat.lt_or_ge σ.currentLevel.toNat l with h2 | h2
    · rw [if_neg (by rw [chainAt_nil (habove l h2)]; simp)]
      exact habove l h2
    · have hcf : (chainAt σ l).erase i = [] := by
        apply count_forces_nil hI.sub σ.currentLevel.toNat l h2
        omega
      by_cases hm : i ∈ chainAt σ l
      · rw [if_pos hm]
        rcases erase_nil_cases hcf with h4 | h4
        · rw [h4] at hm
          simp at hm
        · have h5 : σ.sizes l = 1 := by
            have h6 := congrArg List.length h4
            rw [chainAt, walk_length] at h6
            simpa using h6
          omega
      · rw [if_neg hm]
        rw [List.erase_of_not_mem hm] at hcf
        have h6 := congrArg List.length hcf
        rw [chainAt, walk_length] at h6
        simpa using h6

end RemovePreserve

section ReachInv

variable {K : Type} [LinearOrder K]

/-- Every reachable state satisfies the structural invariant. -/
theorem reach_inv {key : Nat → K} {σ : FixedSkipList}
    (h : Reachable key σ) : SkipInv key σ := by
  induction h with
  | init capacity maxLevel h1 => exact fresh_inv key capacity maxLevel h1
  | insert i insLv h1 h2 h3 h4 ih => exact (insert_spec ih h2 h3 h4).1
  | remove i h1 h2 ih => exact (remove_spec ih h2).1

end ReachInv

namespace FixedSkipList

theorem getLast_notmem_dropLast {c : List Nat} {t : Nat} (hnd : c.Nodup)
    (h : c.getLast? = some t) : t ∉ c.dropLast := by
  have h2 : c.dropLast ++ [t] = c := by
    have h3 : c ≠ [] := by
      intro h4
      rw [h4] at h
      simp at h
    rw [List.getLast?_eq_getLast_of_ne_nil h3] at h
    injection h with h5
    rw [← h5]
    exact List.dropLast_append_getLast h3
  rw [← h2] at hnd
  have hd := (List.nodup_append.mp hnd).2.2
  exact fun hm => hd hm (List.mem_singleton_self t)

theorem jsIterate_walk {f : Nat → Nat} {t : Nat} :
    ∀ (n : Nat) (c : List Nat) (s : Nat) (last : Option Nat),
      walk f s n = c → (∀ x ∈ c.dropLast, x ≠ t) → last ≠ some t →
      jsIterate f t n s last = c := by
  intro n
  induction n with
  | zero =>
    intro c s last hw _ _
    rw [← hw]
    rfl
  | succ m ih =>
    intro c s last hw hdrop hlast
    have hw2 : c = s :: walk f (f s) m := by rw [← hw]; rfl
    rw [jsIterate, if_neg hlast]
    cases m with
    | zero =>
      rw [hw2]
      rfl
    | succ k =>
      rw [hw2]
      have hcne : walk f (f s) (k + 1) ≠ [] := by
        intro h0
        have := walk_length f (k + 1) (f s)
        rw [h0] at this
        simp at this
      have hdrop2 : (s :: walk f (f s) (k + 1)).dropLast =
          s :: (walk f (f s) (k + 1)).dropLast := by
        rw [List.dropLast_cons_of_ne_nil hcne]
      have hs : s ≠ t := by
        apply hdrop
        rw [hw2, hdrop2]
        exact List.mem_cons_self _ _
      have hrec := ih (walk f (f s) (k + 1)) (f s) (some s) rfl
        (fun x hx => by
          apply hdrop
          rw [hw2, hdrop2]
          exact List.mem_cons_of_mem s hx)
        (by simp [hs])
      rw [hrec]

/-- Under the invariant the default iterator yields exactly the bottom
chain. -/
theorem iterS_eq_chain {σ : FixedSkipList}
    (hnd : (chainAt σ 0).Nodup)
    (htl : σ.sizes 0 ≠ 0 → (chainAt σ 0).getLast? = some (σ.tails 0)) :
    iterS σ = chainAt σ 0 := by
  by_cases hz : σ.sizes 0 = 0
  · rw [chainAt_nil hz, iterS, hz]
    rfl
  · exact jsIterate_walk (σ.sizes 0) (chainAt σ 0) (σ.heads 0) none rfl
      (fun x hx hxt => getLast_notmem_dropLast hnd (htl hz) (hxt ▸ hx))
      (by simp)

end FixedSkipList

namespace FixedSkipList

set_option maxHeartbeats 1600000 in
theorem biLevel {σ : FixedSkipList} {P : Nat → Bool} {l : Nat}
    {pt : Option Nat} {F₂ T₂ : List Nat}
    (hnd : (chainAt σ l).Nodup)
    (htl : σ.sizes l ≠ 0 → (chainAt σ l).getLast? = some (σ.tails l))
    (hpt : pt = none ∨ ∃ q, pt = some q ∧ q ∈ chainAt σ l ∧ P q = false)
    (hC : chainAt σ l = F₂ ++ T₂)
    (hF₂ : ∀ x ∈ F₂, P x = false) (hT₂ : ∀ x ∈ T₂, P x = true) :
    biScan P (σ.nexts l) (σ.tails l) (σ.sizes l) none (pt.getD (σ.heads l)) =
      (match T₂ with
       | [] => ((none : Option (Option Nat)),
           if σ.sizes l = 0 then pt.getD (σ.heads l) else σ.tails l)
       | b :: _ => (some F₂.getLast?, b)) := by
  by_cases hsz : σ.sizes l = 0
  · have hCnil : chainAt σ l = [] := chainAt_nil hsz
    rw [hCnil] at hC
    have hF2n : F₂ = [] := by
      cases F₂ with
      | nil => rfl
      | cons x xs => simp at hC
    have hT2n : T₂ = [] := by
      rw [hF2n] at hC
      simpa using hC.symm
    subst hT2n
    dsimp only
    rw [hsz, if_pos rfl]
    rfl
  · have hlen : (chainAt σ l).length = σ.sizes l := by
      rw [chainAt, walk_length]
    have htail := htl hsz
    rcases hpt with rfl | ⟨q, rfl, hqC, hqP⟩
    · have hw : walk (σ.nexts l) ((none : Option Nat).getD (σ.heads l))
          (σ.sizes l) = F₂ ++ T₂ := hC
      cases T₂ with
      | nil =>
        dsimp only
        rw [if_neg hsz]
        rw [List.append_nil] at hC hw
        exact biScan_false F₂ (σ.sizes l) hw hF₂ (hC ▸ htail) (hC ▸ hnd)
          (le_of_eq (by rw [← hC, hlen]))
      | cons b T₃ =>
        dsimp only
        have hres := @biScan_true P (σ.nexts l) (σ.tails l) b F₂ T₃ none _ _
          (σ.sizes l) hw hF₂ (hT₂ b (by simp))
          (notmem_prefix_of_getLast? (hC ▸ hnd) (List.cons_ne_nil b T₃)
            (hC ▸ htail))
          (by
            have h2 := congrArg List.length hC
            rw [hlen] at h2
            simp [List.length_append] at h2
            omega)
        rw [hres]
        by_cases hFn : F₂ = []
        · subst hFn
          rfl
        · rw [lastD_getLast? hFn]
    · have hqF : q ∈ F₂ := by
        rw [hC] at hqC
        rcases List.mem_append.mp hqC with h | h
        · exact h
        · rw [hT₂ q h] at hqP
          simp at hqP
      obtain ⟨X, Y, hXY⟩ := List.append_of_mem hqF
      have hCq : chainAt σ l = X ++ q :: (Y ++ T₂) := by
        rw [hC, hXY]
        simp
      have hwC : walk (σ.nexts l) (σ.heads l) (σ.sizes l) =
          X ++ q :: (Y ++ T₂) := hCq
      have hwq : walk (σ.nexts l) q ((Y ++ T₂).length + 1) =
          q :: (Y ++ T₂) := walk_suffix hwC
      have hqY : ∀ x ∈ q :: Y, P x = false := by
        intro x hx
        apply hF₂
        rw [hXY]
        rcases List.mem_cons.mp hx with rfl | hx2
        · exact List.mem_append_right X (List.mem_cons_self x Y)
        · exact List.mem_append_right X (List.mem_cons_of_mem q hx2)
      have hlenq : X.length + (Y.length + 1) + T₂.length = σ.sizes l := by
        have h2 := congrArg List.length hCq
        rw [hlen] at h2
        simp [List.length_append] at h2
        omega
      have hgetq : (q :: Y).getLast? = F₂.getLast? := by
        rw [hXY, List.getLast?_append_of_ne_nil X (List.cons_ne_nil q Y)]
      cases T₂ with
      | nil =>
        dsimp only
        rw [if_neg hsz, Option.getD_some]
        rw [List.append_nil] at hwq
        have hC3 : chainAt σ l = X ++ q :: Y := by
          rw [hCq]
          simp
        have hglq : (q :: Y).getLast? = some (σ.tails l) := by
          rw [hC3, List.getLast?_append_of_ne_nil X
            (List.cons_ne_nil q Y)] at htail
          exact htail
        have hndq2 : (q :: Y).Nodup := by
          rw [hC3, List.nodup_append] at hnd
          exact hnd.2.1
        exact biScan_false (q :: Y) (σ.sizes l) hwq hqY hglq hndq2
          (by simp at hlenq ⊢; omega)
      | cons b T₃ =>
        dsimp only
        rw [Option.getD_some]
        have hwq2 : walk (σ.nexts l) q ((Y ++ b :: T₃).length + 1) =
            (q :: Y) ++ b :: T₃ := by
          rw [hwq, List.cons_append]
        have hC2 : chainAt σ l = (X ++ q :: Y) ++ b :: T₃ := by
          rw [hCq]
          simp
        have htnm : σ.tails l ∉ q :: Y := by
          have h3 : σ.tails l ∉ X ++ q :: Y :=
            notmem_prefix_of_getLast? (hC2 ▸ hnd) (List.cons_ne_nil b T₃)
              (hC2 ▸ htail)
          exact fun hm => h3 (List.mem_append_right X hm)
        have hres := @biScan_true P (σ.nexts l) (σ.tails l) b (q :: Y) T₃
          none _ _ (σ.sizes l) hwq2 hqY
          (hT₂ b (by simp)) htnm (by simp at hlenq ⊢; omega)
        rw [hres, lastD_getLast? (List.cons_ne_nil q Y), hgetq]

end FixedSkipList

namespace FixedSkipList

set_option maxHeartbeats 1600000 in
theorem bisectLoop_spec {σ : FixedSkipList} {P : Nat → Bool} {F T : List Nat}
    (hnd : ∀ l, (chainAt σ l).Nodup)
    (htl : ∀ l, σ.sizes l ≠ 0 → (chainAt σ l).getLast? = some (σ.tails l))
    (hsub : ∀ l, List.Sublist (chainAt σ (l + 1)) (chainAt σ l))
    (hFT : chainAt σ 0 = F ++ T)
    (hF : ∀ x ∈ F, P x = false) (hT : ∀ x ∈ T, P x = true) :
    ∀ (l : Nat) (pt : Option Nat),
      (T = [] → pt = none) →
      (pt = none ∨ ∃ q, pt = some q ∧ q ∈ chainAt σ l ∧ P q = false) →
      bisectLoop P l σ pt =
        (if F = [] then some (σ.heads 0)
         else if T = [] then
           (if σ.sizes 0 = 1 then some (σ.heads 0) else none)
         else F.getLast?) := by
  intro l
  induction l with
  | zero =>
    intro pt hptT hpt
    have hunf : bisectLoop P 0 σ pt =
        (if (biScan P (σ.nexts 0) (σ.tails 0) (σ.sizes 0) none
            (pt.getD (σ.heads 0))).2 = σ.heads 0 then some (σ.heads 0)
         else match (biScan P (σ.nexts 0) (σ.tails 0) (σ.sizes 0) none
            (pt.getD (σ.heads 0))).1 with
           | some last => last
           | none => pt) := rfl
    rw [hunf, biLevel (hnd 0) (htl 0) hpt hFT hF hT]
    cases T with
    | cons b T₃ =>
      dsimp only
      cases F with
      | nil =>
        rw [List.nil_append] at hFT
        have hwc : walk (σ.nexts 0) (σ.heads 0) (σ.sizes 0) = b :: T₃ := hFT
        obtain ⟨hhead, -, -⟩ := walk_eq_cons hwc
        rw [if_pos hhead.symm, if_pos rfl]
      | cons a F₀ =>
        have hwc : walk (σ.nexts 0) (σ.heads 0) (σ.sizes 0) =
            a :: (F₀ ++ b :: T₃) := by
          rw [show walk (σ.nexts 0) (σ.heads 0) (σ.sizes 0) =
            chainAt σ 0 from rfl, hFT]
          rfl
        obtain ⟨hhead, -, -⟩ := walk_eq_cons hwc
        have hba : ¬ b = σ.heads 0 := by
          intro h0
          have hnd0 := hnd 0
          rw [hFT] at hnd0
          have h1 : a ∉ F₀ ++ b :: T₃ := by
            rw [show (a :: F₀) ++ b :: T₃ = a :: (F₀ ++ b :: T₃) from rfl,
              List.nodup_cons] at hnd0
            exact hnd0.1
          apply h1
          rw [← hhead, ← h0]
          exact List.mem_append_right F₀ (List.mem_cons_self b T₃)
        rw [if_neg hba, if_neg (by simp), if_neg (by simp)]
    | nil =>
      have hpt0 := hptT rfl
      subst hpt0
      dsimp only
      rw [List.append_nil] at hFT
      rw [if_pos (show ([] : List Nat) = [] from rfl)]
      by_cases hsz : σ.sizes 0 = 0
      · rw [if_pos hsz]
        have hFnil : F = [] := by
          rw [← hFT]
          exact chainAt_nil hsz
        rw [if_pos hFnil, Option.getD_none, if_pos rfl]
      · rw [if_neg hsz]
        have hFne : F ≠ [] := by
          intro h0
          apply hsz
          rw [h0] at hFT
          have h2 := congrArg List.length hFT
          rw [chainAt, walk_length] at h2
          simpa using h2
        obtain ⟨a, F₀, rfl⟩ := List.exists_cons_of_ne_nil hFne
        have hwc : walk (σ.nexts 0) (σ.heads 0) (σ.sizes 0) = a :: F₀ := hFT
        obtain ⟨hhead, hsz2, -⟩ := walk_eq_cons hwc
        have htail := htl 0 hsz
        rw [if_neg (show ¬ (a :: F₀) = [] by simp)]
        cases F₀ with
        | nil =>
          have hsz1 : σ.sizes 0 = 1 := by simpa using hsz2
          have hta : σ.tails 0 = σ.heads 0 := by
            rw [hFT] at htail
            simp at htail
            omega
          rw [if_pos hta, if_pos hsz1]
        | cons a2 F₁ =>
          have hsz1 : ¬ σ.sizes 0 = 1 := by
            simp at hsz2
            omega
          have htm : σ.tails 0 ∈ a2 :: F₁ := by
            rw [hFT, List.getLast?_cons_cons] at htail
            exact mem_of_getLast? htail
          have hta : ¬ σ.tails 0 = σ.heads 0 := by
            intro h0
            have hnd0 := hnd 0
            rw [hFT, List.nodup_cons] at hnd0
            apply hnd0.1
            rw [← hhead, ← h0]
            exact htm
          rw [if_neg hta, if_neg hsz1]
  | succ l ih =>
    intro pt hptT hpt
    obtain ⟨F₂, T₂, hC, hF₂s, hT₂s⟩ := List.sublist_append_iff.mp
      (hFT ▸ chain_sub_le hsub (Nat.zero_le (l + 1)))
    have hF₂ : ∀ x ∈ F₂, P x = false := fun x hx => hF x (hF₂s.subset hx)
    have hT₂ : ∀ x ∈ T₂, P x = true := fun x hx => hT x (hT₂s.subset hx)
    have hunf : bisectLoop P (l + 1) σ pt =
        bisectLoop P l σ
          (match (biScan P (σ.nexts (l + 1)) (σ.tails (l + 1))
              (σ.sizes (l + 1)) none (pt.getD (σ.heads (l + 1)))).1 with
           | some last => last
           | none => pt) := rfl
    rw [hunf, biLevel (hnd (l + 1)) (htl (l + 1)) hpt hC hF₂ hT₂]
    cases T₂ with
    | nil =>
      dsimp only
      apply ih pt hptT
      rcases hpt with h | ⟨q, h1, h2, h3⟩
      · exact Or.inl h
      · exact Or.inr ⟨q, h1, (hsub l).subset h2, h3⟩
    | cons b T₃ =>
      dsimp only
      apply ih F₂.getLast?
      · intro h0
        rw [h0, List.sublist_nil] at hT₂s
        simp at hT₂s
      · rcases F₂.eq_nil_or_concat with rfl | ⟨A2, q, rfl⟩
        · exact Or.inl rfl
        · refine Or.inr ⟨q, ?_, ?_, ?_⟩
          · rw [List.concat_eq_append, List.getLast?_concat]
          · apply (hsub l).subset
            rw [hC]
            apply List.mem_append_left
            simp
          · exact hF₂ q (by simp)

theorem bisect_spec {K : Type} [LinearOrder K] {key : Nat → K}
    {σ : FixedSkipList} {P : Nat → Bool} {F T : List Nat}
    (hI : SkipInv key σ) (hFT : chainAt σ 0 = F ++ T)
    (hF : ∀ x ∈ F, P x = false) (hT : ∀ x ∈ T, P x = true) :
    (σ.currentLevel < 0 → σ.bisect P = none) ∧
    (0 ≤ σ.currentLevel → σ.bisect P =
      (if F = [] then some (σ.heads 0)
       else if T = [] then
         (if σ.sizes 0 = 1 then some (σ.heads 0) else none)
       else F.getLast?)) := by
  constructor
  · intro h
    rw [bisect, if_neg (by omega)]
  · intro h
    rw [bisect, if_pos h]
    exact bisectLoop_spec hI.nodup hI.tails_ok hI.sub hFT hF hT _ none
      (fun _ => rfl) (Or.inl rfl)

end FixedSkipList

namespace FixedSkipList

theorem lastD_inv {F : List Nat} {l₀ : Option Nat} {C : List Nat}
    {m : Nat → Int} (hsub : ∀ x ∈ F, x ∈ C ∧ m x < 0)
    (hl₀ : l₀ = none ∨ ∃ q, l₀ = some q ∧ q ∈ C ∧ m q < 0) :
    lastD F l₀ = none ∨ ∃ q, lastD F l₀ = some q ∧ q ∈ C ∧ m q < 0 := by
  rcases F.eq_nil_or_concat with rfl | ⟨A2, q2, rfl⟩
  · exact hl₀
  · refine Or.inr ⟨q2, ?_, (hsub q2 (by simp)).1, (hsub q2 (by simp)).2⟩
    rw [List.concat_eq_append, lastD_getLast? (by simp),
      List.getLast?_concat]

set_option maxHeartbeats 1600000 in
theorem seLevel {σ : FixedSkipList} {m : Nat → Int} {l : Nat}
    {last : Option Nat} {N₂ Z₂ P₂ : List Nat}
    (hnd : (chainAt σ l).Nodup)
    (htl : σ.sizes l ≠ 0 → (chainAt σ l).getLast? = some (σ.tails l))
    (hlast : last = none ∨ ∃ q, last = some q ∧ q ∈ chainAt σ l ∧ m q < 0)
    (hC : chainAt σ l = N₂ ++ Z₂ ++ P₂)
    (hN : ∀ x ∈ N₂, m x < 0) (hZ : ∀ x ∈ Z₂, m x = 0)
    (hP : ∀ x ∈ P₂, 0 < m x) :
    (seScan m (σ.nexts l) (σ.tails l) (σ.sizes l) last
      (last.getD (σ.heads l))).1 = Z₂.head? ∧
    ((seScan m (σ.nexts l) (σ.tails l) (σ.sizes l) last
        (last.getD (σ.heads l))).2 = none ∨
      ∃ q, (seScan m (σ.nexts l) (σ.tails l) (σ.sizes l) last
        (last.getD (σ.heads l))).2 = some q ∧ q ∈ chainAt σ l ∧ m q < 0) := by
  have hlen : (chainAt σ l).length = σ.sizes l := by
    rw [chainAt, walk_length]
  by_cases hstuck : last = some (σ.tails l)
  · obtain ⟨q, hq1, hq2, hq3⟩ : ∃ q, last = some q ∧ q ∈ chainAt σ l ∧
        m q < 0 := by
      rcases hlast with h | h
      · rw [h] at hstuck
        simp at hstuck
      · exact h
    have hqt : q = σ.tails l := by
      rw [hq1] at hstuck
      injection hstuck
    subst hqt
    have hsz : σ.sizes l ≠ 0 := by
      intro h0
      rw [chainAt_nil h0] at hq2
      simp at hq2
    have hgl := htl hsz
    have hP2 : P₂ = [] := by
      cases P₂ with
      | nil => rfl
      | cons p P₃ =>
        rw [hC, List.append_assoc, List.getLast?_append_of_ne_nil _
          (show Z₂ ++ p :: P₃ ≠ [] by simp),
          List.getLast?_append_of_ne_nil _
          (List.cons_ne_nil p P₃)] at hgl
        have hm := mem_of_getLast? hgl
        have := hP _ hm
        omega
    have hZ2 : Z₂ = [] := by
      subst hP2
      cases Z₂ with
      | nil => rfl
      | cons z Z₃ =>
        rw [List.append_nil] at hC
        rw [hC, List.getLast?_append_of_ne_nil _
          (List.cons_ne_nil z Z₃)] at hgl
        have hm := mem_of_getLast? hgl
        have := hZ _ hm
        omega
    subst hZ2
    rw [hstuck, seScan_stuck (σ.sizes l)
      ((some (σ.tails l)).getD (σ.heads l))]
    exact ⟨rfl, Or.inr ⟨σ.tails l, rfl, hq2, hq3⟩⟩
  · by_cases hsz : σ.sizes l = 0
    · have hCnil := chainAt_nil hsz
      rw [hCnil] at hC
      have hZ2 : Z₂ = [] := by
        have h2 := congrArg List.length hC
        simp [List.length_append] at h2
        exact List.eq_nil_of_length_eq_zero (by omega)
      subst hZ2
      rw [hsz]
      exact ⟨rfl, hlast⟩
    · have hgl := htl hsz
      have hmemC : ∀ x ∈ N₂, x ∈ chainAt σ l ∧ m x < 0 := by
        intro x hx
        refine ⟨?_, hN x hx⟩
        rw [hC]
        exact List.mem_append_left _ (List.mem_append_left _ hx)
      rcases hlast with rfl | ⟨q, rfl, hq2, hq3⟩
      · have hw : walk (σ.nexts l) ((none : Option Nat).getD (σ.heads l))
            (σ.sizes l) = N₂ ++ Z₂ ++ P₂ := hC
        cases Z₂ with
        | cons z Z₃ =>
          have hw2 : walk (σ.nexts l)
              ((none : Option Nat).getD (σ.heads l)) (σ.sizes l) =
              N₂ ++ z :: (Z₃ ++ P₂) := by
            rw [hw]
            simp
          have hC2 : chainAt σ l = N₂ ++ z :: (Z₃ ++ P₂) := by
            rw [hC]
            simp
          have hres := @seScan_break m (σ.nexts l) (σ.tails l) z N₂
            (Z₃ ++ P₂) none _ _ (σ.sizes l) hw2 hN
            (by rw [hZ z (by simp)]) (by simp)
            (notmem_prefix_of_getLast? (hC2 ▸ hnd)
              (List.cons_ne_nil z (Z₃ ++ P₂)) (hC2 ▸ hgl))
            (by
              have h2 := congrArg List.length hC2
              rw [hlen] at h2
              simp [List.length_append] at h2
              omega)
          rw [hres, if_pos (hZ z (by simp))]
          exact ⟨rfl, lastD_inv hmemC (Or.inl rfl)⟩
        | nil =>
          rw [List.append_nil] at hw hC
          cases P₂ with
          | cons p P₃ =>
            have hres := @seScan_break m (σ.nexts l) (σ.tails l) p N₂
              P₃ none _ _ (σ.sizes l) hw hN (le_of_lt (hP p (by simp)))
              (by simp)
              (notmem_prefix_of_getLast? (hC ▸ hnd)
                (List.cons_ne_nil p P₃) (hC ▸ hgl))
              (by
                have h2 := congrArg List.length hC
                rw [hlen] at h2
                simp [List.length_append] at h2
                omega)
            rw [hres, if_neg (by have := hP p (by simp); omega)]
            exact ⟨rfl, lastD_inv hmemC (Or.inl rfl)⟩
          | nil =>
            rw [List.append_nil] at hw hC
            have hres := seScan_off N₂ (σ.sizes l) hw hN (hC ▸ hgl)
              (hC ▸ hnd)
              (show (none : Option Nat) ≠ some (σ.tails l) by simp)
              (le_of_eq (by rw [← hC, hlen]))
            rw [hres]
            refine ⟨rfl, Or.inr ⟨σ.tails l, rfl, mem_of_getLast? hgl, ?_⟩⟩
            apply hN
            rw [← hC]
            exact mem_of_getLast? hgl
      · have hqN : q ∈ N₂ := by
          rw [hC] at hq2
          rcases List.mem_append.mp hq2 with h | h
          · rcases List.mem_append.mp h with h2 | h2
            · exact h2
            · have := hZ q h2
              omega
          · have := hP q h
            omega
        obtain ⟨X, Y, hXY⟩ := List.append_of_mem hqN
        have hCq : chainAt σ l = X ++ q :: (Y ++ Z₂ ++ P₂) := by
          rw [hC, hXY]
          simp
        have hwC : walk (σ.nexts l) (σ.heads l) (σ.sizes l) =
            X ++ q :: (Y ++ Z₂ ++ P₂) := hCq
        have hwq : walk (σ.nexts l) q ((Y ++ Z₂ ++ P₂).length + 1) =
            q :: (Y ++ Z₂ ++ P₂) := walk_suffix hwC
        have hqY : ∀ x ∈ q :: Y, m x < 0 := by
          intro x hx
          apply hN
          rw [hXY]
          rcases List.mem_cons.mp hx with rfl | hx2
          · exact List.mem_append_right X (List.mem_cons_self x Y)
          · exact List.mem_append_right X (List.mem_cons_of_mem q hx2)
        have hmemq : ∀ x ∈ q :: Y, x ∈ chainAt σ l ∧ m x < 0 := by
          intro x hx
          refine ⟨?_, hqY x hx⟩
          rw [hCq]
          rcases List.mem_cons.mp hx with rfl | hx2
          · exact List.mem_append_right X (List.mem_cons_self x _)
          · apply List.mem_append_right X
            apply List.mem_cons_of_mem
            exact List.mem_append_left _ (List.mem_append_left _ hx2)
        have hlenq : X.length + (Y.length + 1) + Z₂.length + P₂.length =
            σ.sizes l := by
          have h2 := congrArg List.length hCq
          rw [hlen] at h2
          simp [List.length_append] at h2
          omega
        rw [Option.getD_some]
        cases Z₂ with
        | cons z Z₃ =>
          have hwq2 : walk (σ.nexts l) q
              ((Y ++ z :: Z₃ ++ P₂).length + 1) =
              (q :: Y) ++ z :: (Z₃ ++ P₂) := by
            rw [hwq]
            simp
          have hC2 : chainAt σ l = (X ++ q :: Y) ++ z :: (Z₃ ++ P₂) := by
            rw [hCq]
            simp
          have htnm : σ.tails l ∉ q :: Y := by
            have h3 : σ.tails l ∉ X ++ q :: Y :=
              notmem_prefix_of_getLast? (hC2 ▸ hnd)
                (List.cons_ne_nil z (Z₃ ++ P₂)) (hC2 ▸ hgl)
            exact fun hm2 => h3 (List.mem_append_right X hm2)
          have hres := @seScan_break m (σ.nexts l) (σ.tails l) z (q :: Y)
            (Z₃ ++ P₂) (some q) _ _ (σ.sizes l) hwq2 hqY
            (by rw [hZ z (by simp)]) hstuck htnm
            (by simp at hlenq ⊢; omega)
          rw [hres, if_pos (hZ z (by simp))]
          exact ⟨rfl, lastD_inv hmemq (Or.inr ⟨q, rfl, hq2, hq3⟩)⟩
        | nil =>
          cases P₂ with
          | cons p P₃ =>
            have hwq2 : walk (σ.nexts l) q
                ((Y ++ [] ++ p :: P₃).length + 1) =
                (q :: Y) ++ p :: P₃ := by
              rw [hwq]
              simp
            have hC2 : chainAt σ l = (X ++ q :: Y) ++ p :: P₃ := by
              rw [hCq]
              simp
            have htnm : σ.tails l ∉ q :: Y := by
              have h3 : σ.tails l ∉ X ++ q :: Y :=
                notmem_prefix_of_getLast? (hC2 ▸ hnd)
                  (List.cons_ne_nil p P₃) (hC2 ▸ hgl)
              exact fun hm2 => h3 (List.mem_append_right X hm2)
            have hres := @seScan_break m (σ.nexts l) (σ.tails l) p (q :: Y)
              P₃ (some q) _ _ (σ.sizes l) hwq2 hqY
              (le_of_lt (hP p (by simp))) hstuck htnm
              (by simp at hlenq ⊢; omega)
            rw [hres, if_neg (by have := hP p (by simp); omega)]
            exact ⟨rfl, lastD_inv hmemq (Or.inr ⟨q, rfl, hq2, hq3⟩)⟩
          | nil =>
            have hwq2 : walk (σ.nexts l) q ((Y ++ [] ++ []).length + 1) =
                q :: Y := by
              rw [hwq]
              simp
            have hC2 : chainAt σ l = X ++ q :: Y := by
              rw [hCq]
              simp
            have hglq : (q :: Y).getLast? = some (σ.tails l) := by
              rw [hC2, List.getLast?_append_of_ne_nil X
                (List.cons_ne_nil q Y)] at hgl
              exact hgl
            have hndq : (q :: Y).Nodup := by
              rw [hC2, List.nodup_append] at hnd
              exact hnd.2.1
            have hres := seScan_off (q :: Y) (σ.sizes l) hwq2 hqY hglq
              hndq hstuck (by simp at hlenq ⊢; omega)
            rw [hres]
            refine ⟨rfl, Or.inr ⟨σ.tails l, rfl, ?_, ?_⟩⟩
            · exact (hmemq _ (mem_of_getLast? hglq)).1
            · exact (hmemq _ (mem_of_getLast? hglq)).2

end FixedSkipList

namespace FixedSkipList

set_option maxHeartbeats 1600000 in
theorem searchLoop_spec {σ : FixedSkipList} {m : Nat → Int}
    {N Z P : List Nat}
    (hnd : ∀ l, (chainAt σ l).Nodup)
    (htl : ∀ l, σ.sizes l ≠ 0 → (chainAt σ l).getLast? = some (σ.tails l))
    (hsub : ∀ l, List.Sublist (chainAt σ (l + 1)) (chainAt σ l))
    (hNZP : chainAt σ 0 = N ++ Z ++ P)
    (hN : ∀ x ∈ N, m x < 0) (hZ : ∀ x ∈ Z, m x = 0)
    (hP : ∀ x ∈ P, 0 < m x) :
    ∀ (l : Nat) (last found : Option Nat),
      (last = none ∨ ∃ q, last = some q ∧ q ∈ chainAt σ l ∧ m q < 0) →
      (Z = [] → found = none) →
      searchLoop m l σ last found = Z.head? := by
  intro l
  induction l with
  | zero =>
    intro last found hlast hfound
    have hunf : searchLoop m 0 σ last found =
        (match (seScan m (σ.nexts 0) (σ.tails 0) (σ.sizes 0) last
            (last.getD (σ.heads 0))).1 with
         | some c => some c
         | none => found) := rfl
    have hsl := seLevel (hnd 0) (htl 0) hlast hNZP hN hZ hP
    rw [hunf, hsl.1]
    cases Z with
    | nil =>
      rw [hfound rfl]
      rfl
    | cons z Z₃ => rfl
  | succ l ih =>
    intro last found hlast hfound
    obtain ⟨A, P₂, hC0, hAs, hPs⟩ := List.sublist_append_iff.mp
      (hNZP ▸ chain_sub_le hsub (Nat.zero_le (l + 1)))
    obtain ⟨N₂, Z₂, hA, hNs, hZs⟩ := List.sublist_append_iff.mp hAs
    have hC : chainAt σ (l + 1) = N₂ ++ Z₂ ++ P₂ := by
      rw [hC0, hA]
    have hN₂ : ∀ x ∈ N₂, m x < 0 := fun x hx => hN x (hNs.subset hx)
    have hZ₂ : ∀ x ∈ Z₂, m x = 0 := fun x hx => hZ x (hZs.subset hx)
    have hP₂ : ∀ x ∈ P₂, 0 < m x := fun x hx => hP x (hPs.subset hx)
    have hunf : searchLoop m (l + 1) σ last found =
        searchLoop m l σ
          (seScan m (σ.nexts (l + 1)) (σ.tails (l + 1)) (σ.sizes (l + 1))
            last (last.getD (σ.heads (l + 1)))).2
          (match (seScan m (σ.nexts (l + 1)) (σ.tails (l + 1))
              (σ.sizes (l + 1)) last (last.getD (σ.heads (l + 1)))).1 with
           | some c => some c
           | none => found) := rfl
    have hsl := seLevel (hnd (l + 1)) (htl (l + 1)) hlast hC hN₂ hZ₂ hP₂
    rw [hunf, hsl.1]
    apply ih
    · rcases hsl.2 with h | ⟨q, h1, h2, h3⟩
      · exact Or.inl h
      · exact Or.inr ⟨q, h1, (hsub l).subset h2, h3⟩
    · intro hZnil
      subst hZnil
      have hZ₂nil : Z₂ = [] := by
        rw [List.sublist_nil] at hZs
        exact hZs
      subst hZ₂nil
      exact hfound rfl

theorem search_spec {K : Type} [LinearOrder K] {key : Nat → K}
    {σ : FixedSkipList} {m : Nat → Int} {N Z P : List Nat}
    (hI : SkipInv key σ) (hNZP : chainAt σ 0 = N ++ Z ++ P)
    (hN : ∀ x ∈ N, m x < 0) (hZ : ∀ x ∈ Z, m x = 0)
    (hP : ∀ x ∈ P, 0 < m x) :
    σ.search m = Z.head? := by
  rw [search]
  by_cases h : (0 : Int) ≤ σ.currentLevel
  · rw [if_pos h]
    exact searchLoop_spec hI.nodup hI.tails_ok hI.sub hNZP hN hZ hP _
      none none (Or.inl rfl) (fun _ => rfl)
  · rw [if_neg h]
    have hch : chainAt σ 0 = [] := chainAt_nil (hI.above 0 (by omega))
    rw [hch] at hNZP
    have hZnil : Z = [] := by
      have h2 := congrArg List.length hNZP
      simp [List.length_append] at h2
      exact List.eq_nil_of_length_eq_zero (by omega)
    rw [hZnil]
    rfl

end FixedSkipList

namespace FixedSkipList

theorem jsIterate_length_le (pointers : Nat → Nat) (finish : Nat) :
    ∀ (limit curr : Nat) (last : Option Nat),
      (jsIterate pointers finish limit curr last).length ≤ limit
  | 0, _, _ => by
    rw [jsIterate]
    simp
  | limit + 1, curr, last => by
    rw [jsIterate]
    split
    · simp
    · simpa using jsIterate_length_le pointers finish limit (pointers curr)
        (some curr)

theorem rlLoop_bounds_fuel (x : ℚ) (table : Nat → ℚ) :
    ∀ (n lo hi : Nat), hi - lo ≤ n →
      lo ≤ rlLoop x table lo hi ∧ rlLoop x table lo hi ≤ max lo hi
  | 0, lo, hi, hn => by
    rw [rlLoop]
    split
    · omega
    · exact ⟨le_rfl, le_max_left lo hi⟩
  | n + 1, lo, hi, hn => by
    rw [rlLoop]
    split
    case isTrue h =>
      have hmlo : lo ≤ (lo + hi) / 2 := by omega
      have hmhi : (lo + hi) / 2 < hi := by omega
      dsimp only
      split
      · have hrec := rlLoop_bounds_fuel x table n ((lo + hi) / 2 + 1) hi
          (by omega)
        constructor
        · omega
        · have h2 := hrec.2
          have h3 : max ((lo + hi) / 2 + 1) hi = hi := by omega
          rw [h3] at h2
          omega
      · have hrec := rlLoop_bounds_fuel x table n lo ((lo + hi) / 2)
          (by omega)
        constructor
        · exact hrec.1
        · have h2 := hrec.2
          omega
    case isFalse h => exact ⟨le_rfl, le_max_left lo hi⟩

theorem rlLoop_bounds (x : ℚ) (table : Nat → ℚ) (lo hi : Nat) :
    lo ≤ rlLoop x table lo hi ∧ rlLoop x table lo hi ≤ max lo hi :=
  rlLoop_bounds_fuel x table (hi - lo) lo hi le_rfl

theorem chain_eq_single_iff {σ : FixedSkipList} {l i : Nat} :
    (i ∈ chainAt σ l ∧ σ.sizes l = 1) ↔ chainAt σ l = [i] := by
  constructor
  · rintro ⟨hm, hs⟩
    have hlen1 : (chainAt σ l).length = 1 := by
      rw [chainAt, walk_length]
      exact hs
    obtain ⟨x, hx⟩ := List.length_eq_one.mp hlen1
    rw [hx] at hm ⊢
    simp at hm
    rw [hm]
  · intro h
    refine ⟨by rw [h]; simp, ?_⟩
    have h2 := congrArg List.length h
    rw [chainAt, walk_length] at h2
    simpa using h2

theorem countSingle_pos (σ : FixedSkipList) (i : Nat) :
    ∀ l, 0 < countSingle σ i l ↔ ∃ l2, l2 ≤ l ∧ chainAt σ l2 = [i]
  | 0 => by
    rw [countSingle]
    by_cases h : i ∈ chainAt σ 0 ∧ σ.sizes 0 = 1
    · rw [if_pos h]
      constructor
      · intro
        exact ⟨0, le_rfl, chain_eq_single_iff.mp h⟩
      · intro
        omega
    · rw [if_neg h]
      constructor
      · intro h2
        omega
      · rintro ⟨l2, hl2, hc⟩
        interval_cases l2
        exact absurd (chain_eq_single_iff.mpr hc) h
  | l + 1 => by
    rw [countSingle]
    by_cases h : i ∈ chainAt σ (l + 1) ∧ σ.sizes (l + 1) = 1
    · rw [if_pos h]
      constructor
      · intro
        exact ⟨l + 1, le_rfl, chain_eq_single_iff.mp h⟩
      · intro
        omega
    · rw [if_neg h]
      constructor
      · intro h2
        obtain ⟨l2, hl2, hc⟩ := (countSingle_pos σ i l).mp (by omega)
        exact ⟨l2, by omega, hc⟩
      · rintro ⟨l2, hl2, hc⟩
        rcases Nat.lt_or_ge l2 (l + 1) with h3 | h3
        · have := (countSingle_pos σ i l).mpr ⟨l2, by omega, hc⟩
          omega
        · have hl2e : l2 = l + 1 := by omega
          subst hl2e
          exact absurd (chain_eq_single_iff.mpr hc) h

end FixedSkipList

section InsIdxErase

variable {K : Type} [LinearOrder K]

theorem insIdx_erase {key : Nat → K} {i : Nat} {c : List Nat} (h : i ∉ c) :
    (insIdx key i c).erase i = c := by
  rw [insIdx, FixedSkipList.erase_append_cons_self
    (fun hm => h (List.takeWhile_subset _ hm)),
    List.takeWhile_append_dropWhile]

end InsIdxErase

/-!
## Claim theorems
-/

open FixedSkipList in
/-- C1 (amended): for every reachable state (valid insert/remove sequence
under a consistent comparator), the full forward iteration yields exactly the
bottom chain: `sizes[0]` indices, in non-decreasing key order, without
duplicates; after `insert(i)` the forward iteration is the old one with `i`
spliced at its ordered position (after equal keys), and after `remove(i)`
the index `i` is not yielded by the forward iteration.  (The original
claim's "not yielded by any traversal" is false for the backward traversal:
see the counterexample.) -/
theorem C1_main {K : Type} [LinearOrder K] {key : Nat → K}
    {σ : FixedSkipList} (h : Reachable key σ) :
    σ.iterS = σ.chainAt 0 ∧
    σ.iterS.length = σ.sizes 0 ∧
    σ.iterS.Pairwise (fun a b => key a ≤ key b) ∧
    σ.iterS.Nodup ∧
    (∀ i insLv, i < σ.capacity → i ∉ σ.iterS → insLv + 1 ≤ σ.maxLevel →
      (σ.insert i insLv).iterS = insIdx key i σ.iterS) ∧
    (∀ i, i ∈ σ.iterS → i ∉ (σ.remove i).iterS) := by
  have hI := reach_inv h
  have hit : σ.iterS = σ.chainAt 0 :=
    iterS_eq_chain (hI.nodup 0) (hI.tails_ok 0)
  refine ⟨hit, ?_, ?_, ?_, ?_, ?_⟩
  · rw [hit, chainAt, walk_length]
  · rw [hit]
    exact hI.sorted 0
  · rw [hit]
    exact hI.nodup 0
  · intro i insLv hcap hni hml
    rw [hit] at hni
    obtain ⟨hI2, hle, -, -, -, -, -, -, -⟩ := insert_spec hI hcap hni hml
    have hit2 : (σ.insert i insLv).iterS = (σ.insert i insLv).chainAt 0 :=
      iterS_eq_chain (hI2.nodup 0) (hI2.tails_ok 0)
    rw [hit2, hle 0 (Nat.zero_le insLv), hit]
  · intro i hmem
    rw [hit] at hmem
    obtain ⟨hI3, hch, -⟩ := remove_spec hI hmem
    have hit3 : (σ.remove i).iterS = (σ.remove i).chainAt 0 :=
      iterS_eq_chain (hI3.nodup 0) (hI3.tails_ok 0)
    rw [hit3, hch 0]
    intro hm
    rw [(hI.nodup 0).mem_erase_iff] at hm
    exact hm.1 rfl

open FixedSkipList in
theorem C1_main_witness :
    exOne.iterS = exOne.chainAt 0 ∧ 4 ∉ (exOne.remove 4).iterS :=
  ⟨(C1_main reach_exOne).1,
   (C1_main reach_exOne).2.2.2.2.2 4 (by decide)⟩

open FixedSkipList in
/-- C2 (amended): for a reachable state and a monotone predicate (false on
the prefix `F` of the bottom chain, true on the suffix `T`), `bisect`
returns `none` when `currentLevel` is negative; otherwise it returns
`heads[0]` when `P` is true at the head (`F = []`) — including on the empty
list, where it also returns `heads[0]` rather than the claimed null — the
rightmost false index `F.getLast?` when both parts are nonempty, and in the
all-false case `none` only when `sizes[0] ≥ 2`: a single-element all-false
list returns `heads[0]`, not null as claimed. -/
theorem C2_main {K : Type} [LinearOrder K] {key : Nat → K}
    {σ : FixedSkipList} {P : Nat → Bool} {F T : List Nat}
    (h : Reachable key σ) (hFT : σ.chainAt 0 = F ++ T)
    (hF : ∀ x ∈ F, P x = false) (hT : ∀ x ∈ T, P x = true) :
    (σ.currentLevel < 0 → σ.bisect P = none) ∧
    (0 ≤ σ.currentLevel → σ.bisect P =
      (if F = [] then some (σ.heads 0)
       else if T = [] then
         (if σ.sizes 0 = 1 then some (σ.heads 0) else none)
       else F.getLast?)) :=
  bisect_spec (reach_inv h) hFT hF hT

open FixedSkipList in
theorem C2_main_witness :
    (0 : Int) ≤ exOne.currentLevel ∧
    exOne.bisect (fun _ => true) = some (exOne.heads 0) := by
  refine ⟨by decide, ?_⟩
  have h2 := (C2_main (P := fun _ => true) (T := [4]) (F := [])
    reach_exOne (by decide) (by decide) (by decide)).2 (by decide)
  rw [h2]
  rfl

open FixedSkipList in
/-- C3: for a reachable state and a matcher that is monotone along the
bottom chain (negative on the prefix `N`, zero on the middle run `Z`,
positive on the suffix `P`), `search` returns the head of `Z`: a zero index
exists iff `Z ≠ []`, and the returned index is the earliest zero in forward
order. -/
theorem C3_main {K : Type} [LinearOrder K] {key : Nat → K}
    {σ : FixedSkipList} {m : Nat → Int} {N Z P : List Nat}
    (h : Reachable key σ) (hNZP : σ.chainAt 0 = N ++ Z ++ P)
    (hN : ∀ x ∈ N, m x < 0) (hZ : ∀ x ∈ Z, m x = 0)
    (hP : ∀ x ∈ P, 0 < m x) :
    σ.search m = Z.head? :=
  search_spec (reach_inv h) hNZP hN hZ hP

open FixedSkipList in
theorem C3_main_witness : exOne.search (fun _ => 0) = some 4 := by
  have h2 := C3_main (m := fun _ => 0) (N := []) (Z := [4]) (P := [])
    reach_exOne (by decide) (by decide) (by decide) (by decide)
  rw [h2]
  rfl

open FixedSkipList in
/-- C4 (amended): on a reachable state, `insert(i); remove(i)` with no
intervening operation restores `sizes[0]`, the forward iteration, and in
fact every level's chain, for every promotion level drawn by the insert.
(The backward iteration is not restored: see the counterexample.) -/
theorem C4_main {K : Type} [LinearOrder K] {key : Nat → K}
    {σ : FixedSkipList} {i insLv : Nat} (h : Reachable key σ)
    (hcap : i < σ.capacity) (hni : i ∉ σ.chainAt 0)
    (hml : insLv + 1 ≤ σ.maxLevel) :
    ((σ.insert i insLv).remove i).sizes 0 = σ.sizes 0 ∧
    ((σ.insert i insLv).remove i).iterS = σ.iterS ∧
    (∀ l, ((σ.insert i insLv).remove i).chainAt l = σ.chainAt l) := by
  have hI := reach_inv h
  obtain ⟨hI2, hle, hgt, hsle, -, -, -, -, -⟩ := insert_spec hI hcap hni hml
  have hmem : i ∈ (σ.insert i insLv).chainAt 0 := by
    rw [hle 0 (Nat.zero_le insLv), mem_insIdx]
    exact Or.inl rfl
  obtain ⟨hI3, hch, hsz, -, -, -, -⟩ := remove_spec hI2 hmem
  have hnotin : ∀ l : Nat, i ∉ σ.chainAt l :=
    fun l hm => hni ((chain_sub_le hI.sub (Nat.zero_le l)).subset hm)
  have hchains : ∀ l, ((σ.insert i insLv).remove i).chainAt l =
      σ.chainAt l := by
    intro l
    rw [hch l]
    by_cases hl : l ≤ insLv
    · rw [hle l hl, insIdx_erase (hnotin l)]
    · rw [hgt l (by omega), List.erase_of_not_mem (hnotin l)]
  refine ⟨?_, ?_, hchains⟩
  · rw [hsz 0, if_pos hmem, hsle 0 (Nat.zero_le insLv)]
    omega
  · have h1 : ((σ.insert i insLv).remove i).iterS =
        ((σ.insert i insLv).remove i).chainAt 0 :=
      iterS_eq_chain (hI3.nodup 0) (hI3.tails_ok 0)
    rw [h1, hchains 0, ← iterS_eq_chain (hI.nodup 0) (hI.tails_ok 0)]

open FixedSkipList in
theorem C4_main_witness :
    ((exPair.insert 2 0).remove 2).sizes 0 = exPair.sizes 0 ∧
    ((exPair.insert 2 0).remove 2).iterS = exPair.iterS :=
  ⟨(C4_main reach_exPair (by decide) (by decide) (by decide)).1,
   (C4_main reach_exPair (by decide) (by decide) (by decide)).2.1⟩

open FixedSkipList in
/-- C7 (amended): on every reachable state `currentLevel` lies in
`[-1, maxLevel - 1]` (it can reach `-1`, refuting "remains non-negative":
see the counterexample) and bounds the occupied levels from above; and a
`remove(i)` decreases `currentLevel` exactly when some level at or below
`currentLevel` holds exactly `[i]` — each such level contributes one
decrement, not only the topmost one. -/
theorem C7_main {K : Type} [LinearOrder K] {key : Nat → K}
    {σ : FixedSkipList} (h : Reachable key σ) :
    (-1 ≤ σ.currentLevel ∧ σ.currentLevel ≤ (σ.maxLevel : Int) - 1 ∧
     (∀ l : Nat, σ.currentLevel < (l : Int) → σ.sizes l = 0)) ∧
    (∀ i, i ∈ σ.chainAt 0 →
      ((σ.remove i).currentLevel < σ.currentLevel ↔
        ∃ l, l ≤ σ.currentLevel.toNat ∧ σ.chainAt l = [i])) := by
  have hI := reach_inv h
  refine ⟨⟨hI.lb, hI.ub, hI.above⟩, ?_⟩
  intro i hmem
  obtain ⟨-, -, -, hcl, -⟩ := remove_spec hI hmem
  rw [hcl]
  constructor
  · intro h2
    have h3 : 0 < countSingle σ i σ.currentLevel.toNat := by omega
    exact (countSingle_pos σ i _).mp h3
  · intro h2
    have h3 := (countSingle_pos σ i _).mpr h2
    omega

open FixedSkipList in
theorem C7_main_witness :
    (exOne.remove 4).currentLevel < exOne.currentLevel :=
  ((C7_main reach_exOne).2 4 (by decide)).mpr ⟨0, by decide, by decide⟩

open FixedSkipList in
/-- C9: on a reachable state, a valid `insert` never attempts the interior
splice through a `null` predecessor (the `nexts[l][null]` write): the flag
recording that write is always false. -/
theorem C9_main {K : Type} [LinearOrder K] {key : Nat → K}
    {σ : FixedSkipList} {i insLv : Nat} (h : Reachable key σ)
    (hni : i ∉ σ.chainAt 0) :
    σ.insertNullWrite i insLv = false := by
  have hI := reach_inv h
  set cl : Int := max (insLv : Int) σ.currentLevel with hcldef
  set τ : FixedSkipList := { σ with currentLevel := cl } with hτdef
  have hcmpτ : τ.compare = keyCompare key := hI.cmp
  have hsubσ : ∀ l2 : Nat, List.Sublist (σ.chainAt l2) (σ.chainAt 0) :=
    fun l2 => chain_sub_le hI.sub (Nat.zero_le l2)
  have H : ∀ l2, l2 ≤ cl.toNat →
      (chainAt τ l2).Pairwise (fun a b => key a ≤ key b) ∧
      (chainAt τ l2).Nodup ∧
      (τ.sizes l2 ≠ 0 → (chainAt τ l2).getLast? = some (τ.tails l2)) ∧
      i ∉ chainAt τ l2 := by
    intro l2 _
    exact ⟨hI.sorted l2, hI.nodup l2, hI.tails_ok l2,
      fun hm => hni ((hsubσ l2).subset hm)⟩
  have Hsub2 : ∀ l2, l2 + 1 ≤ cl.toNat →
      List.Sublist (chainAt τ (l2 + 1)) (chainAt τ l2) :=
    fun l2 _ => hI.sub l2
  have hloop := @insertLoop_spec K _ key i insLv cl.toNat τ none false
    hcmpτ H Hsub2 (Or.inl rfl)
  exact hloop.1

open FixedSkipList in
theorem C9_main_witness : exPair.insertNullWrite 2 0 = false :=
  C9_main reach_exPair (by decide)

open FixedSkipList in
/-- C10: every traversal loop is bounded by its stored counter, for
arbitrary pointer-array contents: the shared generator yields at most
`limit` indices no matter what the links hold, and `randomLevel`'s binary
search always lands in `[lo, max lo hi]`, its interval shrinking to a
well-defined total result. -/
theorem C10_main :
    (∀ (pointers : Nat → Nat) (finish limit curr : Nat) (last : Option Nat),
      (jsIterate pointers finish limit curr last).length ≤ limit) ∧
    (∀ (x : ℚ) (table : Nat → ℚ) (lo hi : Nat),
      lo ≤ rlLoop x table lo hi ∧ rlLoop x table lo hi ≤ max lo hi) :=
  ⟨fun pointers finish limit curr last =>
    jsIterate_length_le pointers finish limit curr last,
   fun x table lo hi => rlLoop_bounds x table lo hi⟩
